import Mathlib

/-!
Verification of the spatial-predicate and tree-shaping core of the
repository: GiST / SP-GiST support functions for 2-D boxes and IP
network values, and the network selectivity estimators.

The embedding follows the C sources:
  * src/backend/utils/adt/network_gist.c      (inet_gist_union, penalty, same, ...)
  * network_spgist.c                          (inet_spg_node_number, choose,
                                               inet_spg_consistent_bitmap, ...)
  * src/backend/utils/adt/geo_spgist.c        (getQuadrant, evalRangeBox,
                                               evalRectBox, intersect2D, ...)
  * src/backend/utils/adt/network_selfuncs.c  (inetinclusionsel and helpers)
  * the network_overlap_selectivity revision  (network_overlap_selectivity,
                                               network_adjacent_selectivity)

Primitives that the sources call but whose definitions live outside the
repository slice (bitncmp / bitncommon from network.c, the FP comparison
macros from geo_decls.h, the box scalar operators from geo_ops.c, the
host-supplied MCV matcher) are modelled from the specification; each such
definition carries a doc comment starting with "Modelled from the spec:".

Addresses are embedded as bit strings `Nat → Bool`, MSB first: bit `i` of
the model is bit `7 - i % 8` of byte `i / 8` of the C `ipaddr` array.
Doubles are embedded as rationals; the FP comparison macros are exact per
the specification, so only the order structure matters.
-/

namespace PG

/-! ## BitPrefixMath -/

/-- Modelled from the spec: helper for `bitncommon` (network.c, not in the
repository slice).  Counts how many consecutive bits starting at position
`i`, for at most `fuel` positions, agree between `l` and `r`. -/
def bitncommonFrom (l r : Nat → Bool) : Nat → Nat → Nat
  | _, 0 => 0
  | i, fuel + 1 => if l i = r i then bitncommonFrom l r (i + 1) fuel + 1 else 0

/-- Modelled from the spec: `bitncommon(l, r, n)` of network.c — the number
of leading bits, up to `n`, that are identical between `l` and `r`. -/
def bitncommon (l r : Nat → Bool) (n : Nat) : Nat :=
  bitncommonFrom l r 0 n

/-- Modelled from the spec: `bitncmp(l, r, n)` of network.c — lexicographic
comparison of the first `n` bits of `l` and `r`, returning `-1`, `0` or `1`. -/
def bitncmp (l r : Nat → Bool) (n : Nat) : Int :=
  if bitncommon l r n = n then 0 else if l (bitncommon l r n) then 1 else -1

theorem bitncommonFrom_le (l r : Nat → Bool) :
    ∀ fuel i, bitncommonFrom l r i fuel ≤ fuel := by
  intro fuel
  induction fuel with
  | zero => intro i; simp [bitncommonFrom]
  | succ n ih =>
    intro i
    simp only [bitncommonFrom]
    split
    · exact Nat.succ_le_succ (ih (i + 1))
    · exact Nat.zero_le _

theorem bitncommonFrom_agree (l r : Nat → Bool) :
    ∀ fuel i j, j < bitncommonFrom l r i fuel → l (i + j) = r (i + j) := by
  intro fuel
  induction fuel with
  | zero => intro i j h; simp [bitncommonFrom] at h
  | succ n ih =>
    intro i j h
    simp only [bitncommonFrom] at h
    split at h
    · rename_i heq
      cases j with
      | zero => simpa using heq
      | succ j' =>
        have := ih (i + 1) j' (by omega)
        have e : i + 1 + j' = i + (j' + 1) := by omega
        rwa [e] at this
    · omega

theorem bitncommonFrom_stop (l r : Nat → Bool) :
    ∀ fuel i, bitncommonFrom l r i fuel < fuel →
      l (i + bitncommonFrom l r i fuel) ≠ r (i + bitncommonFrom l r i fuel) := by
  intro fuel
  induction fuel with
  | zero => intro i h; simp at h
  | succ n ih =>
    intro i h
    simp only [bitncommonFrom] at h ⊢
    by_cases heq : l i = r i
    · rw [if_pos heq] at h ⊢
      have hlt : bitncommonFrom l r (i + 1) n < n := by omega
      have := ih (i + 1) hlt
      have e : i + 1 + bitncommonFrom l r (i + 1) n
          = i + (bitncommonFrom l r (i + 1) n + 1) := by omega
      rwa [e] at this
    · rw [if_neg heq] at h ⊢
      simpa using heq

theorem bitncommonFrom_unique (l r : Nat → Bool) :
    ∀ fuel i c, c ≤ fuel → (∀ j < c, l (i + j) = r (i + j)) →
      (c < fuel → l (i + c) ≠ r (i + c)) → bitncommonFrom l r i fuel = c := by
  intro fuel
  induction fuel with
  | zero => intro i c hc _ _; simp [bitncommonFrom]; omega
  | succ n ih =>
    intro i c hc hagree hstop
    simp only [bitncommonFrom]
    split
    · rename_i heq
      cases c with
      | zero =>
        exfalso
        exact hstop (by omega) (by simpa using heq)
      | succ c' =>
        have h1 : bitncommonFrom l r (i + 1) n = c' := by
          apply ih (i + 1) c' (by omega)
          · intro j hj
            have := hagree (j + 1) (by omega)
            have e : i + (j + 1) = i + 1 + j := by omega
            rwa [e] at this
          · intro hlt
            have := hstop (by omega)
            have e : i + (c' + 1) = i + 1 + c' := by omega
            rwa [e] at this
        omega
    · rename_i heq
      cases c with
      | zero => rfl
      | succ c' =>
        exfalso
        exact heq (hagree 0 (by omega))

theorem bitncommon_le (l r : Nat → Bool) (n : Nat) : bitncommon l r n ≤ n :=
  bitncommonFrom_le l r n 0

theorem bitncommon_agree {l r : Nat → Bool} {n i : Nat}
    (h : i < bitncommon l r n) : l i = r i := by
  have := bitncommonFrom_agree l r n 0 i h
  simpa using this

theorem bitncommon_stop {l r : Nat → Bool} {n : Nat}
    (h : bitncommon l r n < n) :
    l (bitncommon l r n) ≠ r (bitncommon l r n) := by
  have := bitncommonFrom_stop l r n 0 h
  simpa using this

theorem bitncommon_unique {l r : Nat → Bool} {n c : Nat}
    (hc : c ≤ n) (hagree : ∀ j < c, l j = r j)
    (hstop : c < n → l c ≠ r c) : bitncommon l r n = c := by
  have := bitncommonFrom_unique l r n 0 c hc (by simpa using hagree)
    (by simpa using hstop)
  simpa using this

theorem bitncommon_eq_iff {l r : Nat → Bool} {n : Nat} :
    bitncommon l r n = n ↔ ∀ i < n, l i = r i := by
  constructor
  · intro h i hi
    exact bitncommon_agree (h ▸ hi)
  · intro h
    exact bitncommon_unique le_rfl h (by intro h'; omega)

/-- Capping: the common-bit count below a smaller bound is the min of the
bound and the count below a larger bound. -/
theorem bitncommon_cap {l r : Nat → Bool} {a b : Nat} (hab : a ≤ b) :
    bitncommon l r a = min a (bitncommon l r b) := by
  apply bitncommon_unique (Nat.min_le_left _ _)
  · intro j hj
    exact bitncommon_agree (lt_of_lt_of_le hj (Nat.min_le_right _ _))
  · intro hlt
    have h1 : min a (bitncommon l r b) = bitncommon l r b := by omega
    rw [h1]
    exact bitncommon_stop (by omega)

theorem bitncmp_eq_zero_iff {l r : Nat → Bool} {n : Nat} :
    bitncmp l r n = 0 ↔ ∀ i < n, l i = r i := by
  unfold bitncmp
  constructor
  · intro h
    split at h
    · exact bitncommon_eq_iff.mp (by assumption)
    · split at h <;> simp at h
  · intro h
    simp [bitncommon_eq_iff.mpr h]

theorem bitncmp_zero_mono {l r : Nat → Bool} {m n : Nat} (hmn : m ≤ n)
    (h : bitncmp l r n = 0) : bitncmp l r m = 0 := by
  rw [bitncmp_eq_zero_iff] at h ⊢
  intro i hi
  exact h i (by omega)

theorem bitncmp_ne_zero_ext {l r : Nat → Bool} {m n : Nat} (hmn : m ≤ n)
    (h : bitncmp l r m ≠ 0) : bitncmp l r n = bitncmp l r m := by
  unfold bitncmp at h ⊢
  have hcap : bitncommon l r m = min m (bitncommon l r n) := bitncommon_cap hmn
  by_cases hm : bitncommon l r m = m
  · simp [hm] at h
  · have h2 : bitncommon l r n = bitncommon l r m := by
      have := bitncommon_le l r m
      omega
    have h3 : bitncommon l r n ≠ n := by
      by_contra hcon
      have := bitncommon_le l r m
      omega
    have h4 : bitncommon l r m ≠ n := by omega
    rw [if_neg hm, h2, if_neg h4]

/-- If `l'` agrees with `l` on the first `k` bits, comparisons of at most
`k` bits cannot tell them apart. -/
theorem bitncmp_congr {l l' r : Nat → Bool} {k n : Nat}
    (hagree : ∀ i < k, l' i = l i) (hn : n ≤ k) :
    bitncmp l' r n = bitncmp l r n := by
  have hble := bitncommon_le l r n
  have hc : bitncommon l' r n = bitncommon l r n := by
    apply bitncommon_unique hble
    · intro j hj
      rw [hagree j (by omega)]
      exact bitncommon_agree hj
    · intro hlt
      rw [hagree _ (by omega)]
      exact bitncommon_stop hlt
  unfold bitncmp
  rw [hc]
  split
  · rfl
  · rw [hagree _ (by have := bitncommon_le l r n; omega)]

/-- Sign of the comparison when the first disagreement is known. -/
theorem bitncmp_pos_of_first_diff {l r : Nat → Bool} {d n : Nat}
    (hagree : ∀ i < d, l i = r i) (hd : d < n)
    (hl : l d = true) (hr : r d = false) : bitncmp l r n = 1 := by
  have hc : bitncommon l r n = d := by
    apply bitncommon_unique (by omega) hagree
    intro _
    simp [hl, hr]
  unfold bitncmp
  rw [hc, if_neg (Nat.ne_of_lt hd), hl, if_pos rfl]

theorem bitncmp_neg_of_first_diff {l r : Nat → Bool} {d n : Nat}
    (hagree : ∀ i < d, l i = r i) (hd : d < n)
    (hl : l d = false) (hr : r d = true) : bitncmp l r n = -1 := by
  have hc : bitncommon l r n = d := by
    apply bitncommon_unique (by omega) hagree
    intro _
    simp [hl, hr]
  unfold bitncmp
  rw [hc, if_neg (Nat.ne_of_lt hd), hl]
  simp

theorem bitncmp_agree_of_eq_zero {l r : Nat → Bool} {n i : Nat}
    (h : bitncmp l r n = 0) (hi : i < n) : l i = r i :=
  bitncmp_eq_zero_iff.mp h i hi

theorem bitncmp_zero_len (l r : Nat → Bool) : bitncmp l r 0 = 0 := by
  rw [bitncmp_eq_zero_iff]
  omega

/-! ## Network values (utils/inet.h) -/

/-- `PGSQL_AF_INET` = `AF_INET + 0`; `AF_INET` is 2 on the target platform. -/
def PGSQL_AF_INET : Nat := 2

/-- `PGSQL_AF_INET6` = `AF_INET + 1`. -/
def PGSQL_AF_INET6 : Nat := 3

/-- `inet_struct` of utils/inet.h: address family, number of bits in the
netmask, and the raw address, embedded as an MSB-first bit string. -/
structure Inet where
  family : Nat
  bits : Nat
  addr : Nat → Bool

/-- `ip_maxbits`: 32 for IPv4 values, 128 otherwise. -/
def ip_maxbits (x : Inet) : Nat :=
  if x.family = PGSQL_AF_INET then 32 else 128

/-- Well-formedness of a stored value: the netmask length does not exceed
the address width.  The type's constructors guarantee this. -/
def inetWF (x : Inet) : Prop := x.bits ≤ ip_maxbits x

/-- `ip_addr(x)[b / 8] & (1 << (7 - b % 8))` — bit `b` of the address,
MSB first. -/
def addrBit (x : Inet) (b : Nat) : Bool := x.addr b

/-! ## NetworkRangeTreeAM (network_gist.c) -/

/-- The body of the `inet_gist_union` loop for one key `t`: `bits` is
first reduced to `t`'s netmask when that is smaller, then (unless zero)
to the bits in common with the first key's address. -/
def unionStepBits (addr0 : Nat → Bool) (t : Inet) (bits : Nat) : Nat :=
  let bits1 := if bits > t.bits then t.bits else bits
  if bits1 ≠ 0 then bitncommon addr0 t.addr bits1 else bits1

/-- The loop of `inet_gist_union`: starting from the family and bits of the
first key, scan the remaining keys; a differing family forces the
`(0, 0)` sentinel (the C loop `break`s), otherwise `bits` shrinks by
`unionStepBits`. -/
def inetUnionLoop (addr0 : Nat → Bool) : Nat → Nat → List Inet → Nat × Nat
  | family, bits, [] => (family, bits)
  | family, bits, t :: rest =>
    if t.family ≠ family then (0, 0)
    else inetUnionLoop addr0 family (unionStepBits addr0 t bits) rest

/-- `inet_gist_union`: family and bits from the loop above; the address is
the first key's address with every bit at or beyond `bits` zeroed (the C
code `memcpy`s `(bits + 7) / 8` bytes into a zeroed buffer and masks the
partial byte). -/
def inet_gist_union (e : Inet) (es : List Inet) : Inet :=
  let fb := inetUnionLoop e.addr e.family e.bits es
  { family := fb.1
    bits := fb.2
    addr := fun i => if i < fb.2 then e.addr i else false }

/-- `inet_gist_penalty`: the reverse of the common bit count, with the
constants 2, 3, 4 for the cases where it cannot be computed. -/
def inet_gist_penalty (orig new : Inet) : ℚ :=
  if orig.family = new.family then
    let minbits := min orig.bits new.bits
    if minbits > 0 then
      let commonbits := bitncommon orig.addr new.addr minbits
      if commonbits > 0 then 1 / (commonbits : ℚ) else 2
    else 3
  else 4

/-- `inet_gist_same`: equal family, equal bits, and `bitncmp` equality over
the whole address width `ip_maxbits(left)`. -/
def inet_gist_same (l r : Inet) : Bool :=
  r.family = l.family ∧ r.bits = l.bits ∧
    bitncmp l.addr r.addr (ip_maxbits l) = 0

/-! ## NetworkPrefixTreeAM (network_spgist.c) -/

/-- `inet_spg_node_number`: 1 is added when the address has a bit at
position `commonbits` and that bit is set; 2 is added when the netmask is
longer than `commonbits`. -/
def inet_spg_node_number (orig : Inet) (commonbits : Nat) : Nat :=
  (if commonbits < ip_maxbits orig ∧ orig.addr commonbits then 1 else 0) +
    (if commonbits < orig.bits then 2 else 0)

/-- Result variants of the SP-GiST choose function (`spgChooseOut`),
restricted to the fields the logic decides. -/
inductive SpgChooseResult where
  | matchNodeFamily (nodeN : Nat)
  | splitTupleFamily (postfixNodeN : Nat)
  | matchNodeSame
  | splitTuplePrefix (commonbits : Nat) (postfixNodeN : Nat)
  | matchNode (nodeN : Nat)
  deriving DecidableEq, Repr

/-- `inet_spg_choose`: family dispatch at the prefix-less root, family
split, the all-the-same passthrough, prefix split when the incoming value
cannot live under the node's prefix, and otherwise a match at
`inet_spg_node_number`. -/
def inet_spg_choose (hasPfx allTheSame : Bool) (orig pfx : Inet) :
    SpgChooseResult :=
  if !hasPfx then
    .matchNodeFamily (if orig.family = PGSQL_AF_INET then 0 else 1)
  else if orig.family ≠ pfx.family then
    .splitTupleFamily (if pfx.family = PGSQL_AF_INET then 0 else 1)
  else if allTheSame then
    .matchNodeSame
  else if orig.bits < pfx.bits ∨ bitncmp pfx.addr orig.addr pfx.bits ≠ 0 then
    let commonbits := bitncommon pfx.addr orig.addr orig.bits
    .splitTuplePrefix commonbits (inet_spg_node_number pfx commonbits)
  else
    .matchNode (inet_spg_node_number orig pfx.bits)

/-- The strategy numbers the network opclasses register (stratnum.h).
`isBasicStrategy` below mirrors the C range check
`RTEqualStrategyNumber ≤ strategy ≤ RTGreaterEqualStrategyNumber`
(numbers 18 to 23). -/
inductive InetStrategy where
  | sub          -- RTSubStrategyNumber (24), strict subnet
  | subEq        -- RTSubEqualStrategyNumber (25)
  | overlaps     -- RTOverlapStrategyNumber (3)
  | superStrict  -- RTSuperStrategyNumber (26), strict supernet
  | superEq      -- RTSuperEqualStrategyNumber (27)
  | lt           -- RTLessStrategyNumber (20)
  | le           -- RTLessEqualStrategyNumber (21)
  | eq           -- RTEqualStrategyNumber (18)
  | ne           -- RTNotEqualStrategyNumber (19)
  | ge           -- RTGreaterEqualStrategyNumber (23)
  | gt           -- RTGreaterStrategyNumber (22)
  deriving DecidableEq, Repr

/-- The numeric test `strategy ≥ RTEqualStrategyNumber ∧
strategy ≤ RTGreaterEqualStrategyNumber` of check 3's tail. -/
def isBasicStrategy : InetStrategy → Bool
  | .lt | .le | .eq | .ne | .ge | .gt => true
  | _ => false

/-- Check 0 of `inet_spg_consistent_bitmap` (IP family), entered only
when the argument's family differs from the prefix's. -/
def inetCheck0 (pfx arg : Inet) (strat : InetStrategy) (bm : Nat) : Nat :=
  match strat with
  | .lt | .le => if arg.family < pfx.family then 0 else bm
  | .ge | .gt => if arg.family > pfx.family then 0 else bm
  | .ne => bm
  | _ => 0

/-- Check 1 (network bit count). -/
def inetCheck1 (commonbits : Nat) (arg : Inet) (strat : InetStrategy)
    (bm : Nat) : Nat :=
  match strat with
  | .sub => if commonbits ≤ arg.bits then bm &&& 12 else bm
  | .subEq => if commonbits < arg.bits then bm &&& 12 else bm
  | .superStrict =>
    if commonbits + 1 = arg.bits then bm &&& 3
    else if commonbits ≥ arg.bits then 0 else bm
  | .superEq =>
    if commonbits = arg.bits then bm &&& 3
    else if commonbits > arg.bits then 0 else bm
  | .eq =>
    if commonbits < arg.bits then bm &&& 12
    else if commonbits = arg.bits then bm &&& 3 else 0
  | _ => bm

/-- Check 2 (common network bits), entered only when the order is
non-zero. -/
def inetCheck2 (order : Int) (strat : InetStrategy) (bm : Nat) : Nat :=
  match strat with
  | .lt | .le => if order > 0 then 0 else bm
  | .ge | .gt => if order < 0 then 0 else bm
  | .ne => bm
  | _ => 0

/-- Check 3 (next network bit). -/
def inetCheck3 (commonbits : Nat) (arg : Inet) (strat : InetStrategy)
    (bm : Nat) : Nat :=
  if bm &&& 12 ≠ 0 ∧ commonbits < arg.bits then
    let nextbit := arg.addr commonbits
    match strat with
    | .lt | .le => if !nextbit then bm &&& 7 else bm
    | .ge | .gt => if nextbit then bm &&& 11 else bm
    | .ne => bm
    | _ => if !nextbit then bm &&& 7 else bm &&& 11
  else bm

/-- Check 4 (network bit count again), for the basic comparisons. -/
def inetCheck4 (commonbits : Nat) (arg : Inet) (strat : InetStrategy)
    (bm : Nat) : Nat :=
  match strat with
  | .lt | .le =>
    if commonbits = arg.bits then bm &&& 3
    else if commonbits > arg.bits then 0 else bm
  | .ge | .gt => if commonbits < arg.bits then bm &&& 12 else bm
  | _ => bm

/-- Check 5 (next host bit), inner nodes only. -/
def inetCheck5 (leaf : Bool) (commonbits : Nat) (arg : Inet)
    (strat : InetStrategy) (bm : Nat) : Nat :=
  if !leaf ∧ bm &&& 3 ≠ 0 ∧ commonbits < ip_maxbits arg then
    let nextbit := arg.addr commonbits
    match strat with
    | .lt | .le => if !nextbit then bm &&& 13 else bm
    | .ge | .gt => if nextbit then bm &&& 14 else bm
    | .ne => bm
    | _ => if !nextbit then bm &&& 13 else bm &&& 14
  else bm

/-- Check 6 (whole address), leaves only. -/
def inetCheck6 (pfx arg : Inet) (strat : InetStrategy) (bm : Nat) : Nat :=
  let order2 := bitncmp pfx.addr arg.addr (ip_maxbits pfx)
  match strat with
  | .lt => if order2 ≥ 0 then 0 else bm
  | .le => if order2 > 0 then 0 else bm
  | .eq => if order2 ≠ 0 then 0 else bm
  | .ge => if order2 < 0 then 0 else bm
  | .gt => if order2 ≤ 0 then 0 else bm
  | .ne => if order2 = 0 then 0 else bm
  | _ => bm

/-- One iteration of the scan-key loop of `inet_spg_consistent_bitmap`,
applied to the current bitmap.  The checks appear in source order:
family (0), network bit count (1), common network bits (2), next network
bit (3), bit count again (4), next host bit (5), whole address (6); the
loop `break`s out when the bitmap reaches zero and `continue`s after a
family mismatch or a non-zero common-bits order. -/
def inetStepKey (pfx : Inet) (leaf : Bool) (strat : InetStrategy)
    (arg : Inet) (bm0 : Nat) : Nat :=
  let commonbits := pfx.bits
  if arg.family ≠ pfx.family then inetCheck0 pfx arg strat bm0
  else
    let bm1 := inetCheck1 commonbits arg strat bm0
    if bm1 = 0 then 0 else
    let order := bitncmp pfx.addr arg.addr (min commonbits arg.bits)
    if order ≠ 0 then inetCheck2 order strat bm1
    else
    let bm3 := inetCheck3 commonbits arg strat bm1
    if bm3 = 0 then 0 else
    if !isBasicStrategy strat then bm3 else
    let bm4 := inetCheck4 commonbits arg strat bm3
    if bm4 = 0 then 0 else
    if commonbits ≠ arg.bits then bm4 else
    let bm5 := inetCheck5 leaf commonbits arg strat bm4
    if bm5 = 0 then 0 else
    if leaf then inetCheck6 pfx arg strat bm5 else bm5

/-- The scan-key loop of `inet_spg_consistent_bitmap`: the loop `break`s
as soon as the bitmap becomes zero. -/
def inetBitmapLoop (pfx : Inet) (leaf : Bool) :
    Nat → List (InetStrategy × Inet) → Nat
  | bm, [] => bm
  | bm, k :: rest =>
    if bm = 0 then 0
    else inetBitmapLoop pfx leaf (inetStepKey pfx leaf k.1 k.2 bm) rest

/-- `inet_spg_consistent_bitmap`: bitmap of consistent nodes, starting from
bit 0 alone for a leaf and bits 0-3 for an inner node. -/
def inet_spg_consistent_bitmap (pfx : Inet)
    (keys : List (InetStrategy × Inet)) (leaf : Bool) : Nat :=
  inetBitmapLoop pfx leaf (if leaf then 1 else 1 ||| 2 ||| 4 ||| 8) keys

/-- `inet_spg_leaf_consistent`: the bitmap of the leaf value, used as a
boolean. -/
def inet_spg_leaf_consistent (leafv : Inet)
    (keys : List (InetStrategy × Inet)) : Bool :=
  inet_spg_consistent_bitmap leafv keys true ≠ 0

/-- The node list built by `inet_spg_inner_consistent` for a node with a
prefix: node `i` is emitted when bit `i` of the bitmap is set. -/
def inet_spg_inner_consistent_nodes (pfx : Inet)
    (keys : List (InetStrategy × Inet)) : List Nat :=
  (List.range 4).filter
    (fun i => (inet_spg_consistent_bitmap pfx keys false).testBit i)

/-! ## GeometricPredicates and BoxQuadTreeAM (geo_spgist.c)

Coordinates are embedded as rationals.  The FP comparison macros of
geo_decls.h are not part of the repository slice; following the spec they
are exact comparisons, so `FPge(a, b)` is `b ≤ a`, `FPlt(a, b)` is
`a < b`, and so on. -/

/-- A coordinate bound of a traversal-value rectangle: a real bound or one
of the two infinities `initializeUnboundedBox` starts from. -/
inductive UD where
  | ninf
  | fin (v : ℚ)
  | pinf
  deriving DecidableEq, Repr

/-- Order on unbounded coordinates; infinities resolve in the obvious
direction. -/
def udLe : UD → UD → Bool
  | .ninf, _ => true
  | _, .pinf => true
  | .pinf, _ => false
  | .fin _, .ninf => false
  | .fin a, .fin b => a ≤ b

/-- Strict order on unbounded coordinates. -/
def udLt (a b : UD) : Bool := !udLe b a

/-- `Point` of geo_decls.h. -/
structure Pt where
  x : ℚ
  y : ℚ
  deriving DecidableEq, Repr

/-- `BOX` of geo_decls.h; the constructor guarantees `low ≤ high`
coordinate-wise (not re-validated here). -/
structure BoxT where
  low : Pt
  high : Pt
  deriving DecidableEq, Repr

/-- The pre-normalization assumption on boxes. -/
def validBox (b : BoxT) : Bool :=
  b.low.x ≤ b.high.x ∧ b.low.y ≤ b.high.y

/-- `Range` of geo_spgist.c (finite: used for centroids and queries). -/
structure RangeQ where
  low : ℚ
  high : ℚ
  deriving DecidableEq, Repr

/-- `RangeBox` of geo_spgist.c over finite coordinates. -/
structure RangeBoxQ where
  left : RangeQ
  right : RangeQ
  deriving DecidableEq, Repr

/-- A `Range` whose bounds may be the infinities of the initial traversal
value. -/
structure RangeU where
  low : UD
  high : UD
  deriving DecidableEq, Repr

/-- A `RangeBox` of unbounded ranges. -/
structure RangeBoxU where
  left : RangeU
  right : RangeU
  deriving DecidableEq, Repr

/-- `RectBox` of geo_spgist.c: the traversal value bounding a subtree. -/
structure RectBox where
  range_box_x : RangeBoxU
  range_box_y : RangeBoxU
  deriving DecidableEq, Repr

/-- `boxPointerToRangeBox`. -/
def boxToRangeBox (b : BoxT) : RangeBoxQ :=
  { left := { low := b.low.x, high := b.high.x }
    right := { low := b.low.y, high := b.high.y } }

/-- `initializeUnboundedBox`: the whole 4-D space. -/
def initialRectBox : RectBox :=
  { range_box_x :=
      { left := { low := .ninf, high := .pinf }
        right := { low := .ninf, high := .pinf } }
    range_box_y :=
      { left := { low := .ninf, high := .pinf }
        right := { low := .ninf, high := .pinf } } }

/-- `getQuadrant`: the 4-bit quadrant of `inBox` relative to `centroid`. -/
def getQuadrant (centroid inBox : BoxT) : Nat :=
  (if inBox.low.x > centroid.low.x then 8 else 0) +
    (if inBox.high.x > centroid.high.x then 4 else 0) +
    (if inBox.low.y > centroid.low.y then 2 else 0) +
    (if inBox.high.y > centroid.high.y then 1 else 0)

/-- `evalRangeBox`: one axis of the traversal-value computation.  `half1`
and `half2` are the two quadrant bits for this axis (the C code passes
`quadrant & 0x8` etc. and tests against 0). -/
def evalRangeBox (range_box : RangeBoxU) (range : RangeQ)
    (half1 half2 : Bool) : RangeBoxU :=
  { left :=
      if half1 = false then
        { low := range_box.left.low, high := .fin range.low }
      else
        { low := .fin range.low, high := range_box.left.high }
    right :=
      if half2 = false then
        { low := range_box.right.low, high := .fin range.high }
      else
        { low := .fin range.high, high := range_box.right.high } }

/-- `evalRectBox`: the traversal value of the child in quadrant `quadrant`
of a node with the given centroid. -/
def evalRectBox (rect_box : RectBox) (centroid : RangeBoxQ)
    (quadrant : Nat) : RectBox :=
  { range_box_x :=
      evalRangeBox rect_box.range_box_x centroid.left
        (quadrant.testBit 3) (quadrant.testBit 2)
    range_box_y :=
      evalRangeBox rect_box.range_box_y centroid.right
        (quadrant.testBit 1) (quadrant.testBit 0) }

/-- `intersect2D`: `FPge(range_box->right.high, range->low) &&
FPle(range_box->left.low, range->high)`. -/
def intersect2D (range : RangeQ) (range_box : RangeBoxU) : Bool :=
  udLe (.fin range.low) range_box.right.high &&
    udLe range_box.left.low (.fin range.high)

/-- `intersect4D`. -/
def intersect4D (rectangle : RangeBoxQ) (rect_box : RectBox) : Bool :=
  intersect2D rectangle.left rect_box.range_box_x &&
    intersect2D rectangle.right rect_box.range_box_y

/-- `contain2D`. -/
def contain2D (range : RangeQ) (range_box : RangeBoxU) : Bool :=
  udLe (.fin range.high) range_box.right.high &&
    udLe range_box.left.low (.fin range.low)

/-- `contain4D`. -/
def contain4D (range_box : RangeBoxQ) (rect_box : RectBox) : Bool :=
  contain2D range_box.left rect_box.range_box_x &&
    contain2D range_box.right rect_box.range_box_y

/-- `contained2D`. -/
def contained2D (range : RangeQ) (range_box : RangeBoxU) : Bool :=
  udLe range_box.left.low (.fin range.high) &&
    udLe (.fin range.low) range_box.left.high &&
    udLe range_box.right.low (.fin range.high) &&
    udLe (.fin range.low) range_box.right.high

/-- `contained4D`. -/
def contained4D (range_box : RangeBoxQ) (rect_box : RectBox) : Bool :=
  contained2D range_box.left rect_box.range_box_x &&
    contained2D range_box.right rect_box.range_box_y

/-- `isLower`. -/
def isLower (range : RangeQ) (range_box : RangeBoxU) : Bool :=
  udLt range_box.left.low (.fin range.low) &&
    udLt range_box.right.low (.fin range.low)

/-- `isHigher`. -/
def isHigher (range : RangeQ) (range_box : RangeBoxU) : Bool :=
  udLt (.fin range.high) range_box.left.high &&
    udLt (.fin range.high) range_box.right.high

/-- `left4D`. -/
def left4D (range_box : RangeBoxQ) (rect_box : RectBox) : Bool :=
  isLower range_box.left rect_box.range_box_x

/-- `right4D`. -/
def right4D (range_box : RangeBoxQ) (rect_box : RectBox) : Bool :=
  isHigher range_box.left rect_box.range_box_x

/-- `below4D`. -/
def below4D (range_box : RangeBoxQ) (rect_box : RectBox) : Bool :=
  isLower range_box.right rect_box.range_box_y

/-- `above4D`. -/
def above4D (range_box : RangeBoxQ) (rect_box : RectBox) : Bool :=
  isHigher range_box.right rect_box.range_box_y

/-- The box-opclass strategies served by geo_spgist.c. -/
inductive BoxStrategy where
  | overlap      -- RTOverlapStrategyNumber
  | contains     -- RTContainsStrategyNumber
  | containedBy  -- RTContainedByStrategyNumber
  | left         -- RTLeftStrategyNumber
  | right        -- RTRightStrategyNumber
  | above        -- RTAboveStrategyNumber
  | below        -- RTBelowStrategyNumber
  deriving DecidableEq, Repr

/-- The per-quadrant, per-scan-key test of
`spg_box_quad_inner_consistent`, dispatching on the strategy. -/
def boxInnerCheck (strat : BoxStrategy) (query : BoxT) (rb : RectBox) :
    Bool :=
  let q := boxToRangeBox query
  match strat with
  | .overlap => intersect4D q rb
  | .contains => contain4D q rb
  | .containedBy => contained4D q rb
  | .left => left4D q rb
  | .right => right4D q rb
  | .above => above4D q rb
  | .below => below4D q rb

/-- Modelled from the spec: the base scalar operator `box_overlap` of
geo_ops.c (not in the repository slice), with exact comparisons. -/
def box_overlap (a b : BoxT) : Bool :=
  b.low.x ≤ a.high.x ∧ a.low.x ≤ b.high.x ∧
    b.low.y ≤ a.high.y ∧ a.low.y ≤ b.high.y

/-- Modelled from the spec: `box_contain` — `a` contains `b`. -/
def box_contain (a b : BoxT) : Bool :=
  b.high.x ≤ a.high.x ∧ a.low.x ≤ b.low.x ∧
    b.high.y ≤ a.high.y ∧ a.low.y ≤ b.low.y

/-- Modelled from the spec: `box_contained` — `a` is contained in `b`. -/
def box_contained (a b : BoxT) : Bool :=
  box_contain b a

/-- Modelled from the spec: `box_left` — `a` is strictly left of `b`. -/
def box_left (a b : BoxT) : Bool :=
  a.high.x < b.low.x

/-- Modelled from the spec: `box_right`. -/
def box_right (a b : BoxT) : Bool :=
  b.high.x < a.low.x

/-- Modelled from the spec: `box_below`. -/
def box_below (a b : BoxT) : Bool :=
  a.high.y < b.low.y

/-- Modelled from the spec: `box_above`. -/
def box_above (a b : BoxT) : Bool :=
  b.high.y < a.low.y

/-- The per-scan-key test of `spg_box_quad_leaf_consistent`: the leaf
datum is the left operand of the scalar operator. -/
def boxLeafCheck (strat : BoxStrategy) (leafBox query : BoxT) : Bool :=
  match strat with
  | .overlap => box_overlap leafBox query
  | .contains => box_contain leafBox query
  | .containedBy => box_contained leafBox query
  | .left => box_left leafBox query
  | .right => box_right leafBox query
  | .above => box_above leafBox query
  | .below => box_below leafBox query

/-- `spg_box_quad_leaf_consistent`: conjunction over the scan keys. -/
def spg_box_quad_leaf_consistent (leafBox : BoxT)
    (keys : List (BoxStrategy × BoxT)) : Bool :=
  keys.all (fun k => boxLeafCheck k.1 leafBox k.2)

/-- The node-number list built by `spg_box_quad_inner_consistent` at a
node that is not all-the-same: quadrant `q` of the 16 candidates survives
when every scan key approves the tightened traversal value. -/
def spg_box_quad_inner_nodes (rect_box : RectBox) (centroid : BoxT)
    (keys : List (BoxStrategy × BoxT)) : List Nat :=
  (List.range 16).filter
    (fun q =>
      keys.all (fun k =>
        boxInnerCheck k.1 k.2 (evalRectBox rect_box (boxToRangeBox centroid) q)))

/-- Membership of a box in a traversal-value rectangle: each of the four
projections lies within the corresponding interval. -/
def inRectBox (b : BoxT) (rb : RectBox) : Bool :=
  udLe rb.range_box_x.left.low (.fin b.low.x) &&
    udLe (.fin b.low.x) rb.range_box_x.left.high &&
    udLe rb.range_box_x.right.low (.fin b.high.x) &&
    udLe (.fin b.high.x) rb.range_box_x.right.high &&
    udLe rb.range_box_y.left.low (.fin b.low.y) &&
    udLe (.fin b.low.y) rb.range_box_y.left.high &&
    udLe rb.range_box_y.right.low (.fin b.high.y) &&
    udLe (.fin b.high.y) rb.range_box_y.right.high

/-- Traversal values reachable from the root by tightening steps, as
`spg_box_quad_inner_consistent` produces them. -/
inductive ReachableRect : RectBox → Prop where
  | root : ReachableRect initialRectBox
  | step {rb : RectBox} (centroid : BoxT) (quadrant : Nat) :
      ReachableRect rb →
      ReachableRect (evalRectBox rb (boxToRangeBox centroid) quadrant)

/-- `spg_box_quad_picksplit` centroid: the element at index `nTuples / 2`
of each of the four sorted coordinate projections.  The C code uses
`qsort`; any sorting algorithm yields the same value list, which the
median theorem below makes precise. -/
def picksplitCentroid (boxes : List BoxT) : BoxT :=
  let median := boxes.length / 2
  let sortAt : List ℚ → ℚ := fun l =>
    ((l.insertionSort (· ≤ ·)).getD median 0)
  { low :=
      { x := sortAt (boxes.map (fun b => b.low.x))
        y := sortAt (boxes.map (fun b => b.low.y)) }
    high :=
      { x := sortAt (boxes.map (fun b => b.high.x))
        y := sortAt (boxes.map (fun b => b.high.y)) } }

/-- `spg_box_quad_picksplit` tuple-to-node map: each box goes to its
quadrant relative to the computed centroid. -/
def picksplitNodeMap (boxes : List BoxT) : List Nat :=
  boxes.map (fun b => getQuadrant (picksplitCentroid boxes) b)

/-! ## SelectivityEstimator (network_selfuncs.c)

The statistics sample, the MCV matcher (`mcv_selectivity`) and the
catalog access (`get_attstatsslot`) are host-supplied.  They are modelled
from the spec by explicit parameters: `mcvMatch` is the summed frequency
of the MCV entries matching the constant, `mcvTotal` the summed frequency
of all MCV entries, `hist` is `none` when no histogram slot exists.
Doubles are embedded as rationals. -/

/-- `DEFAULT_OVERLAP_SEL` (also `DEFAULT_NETWORK_OVERLAP_SELECTIVITY`). -/
def DEFAULT_OVERLAP_SEL : ℚ := 1 / 100

/-- `DEFAULT_INCLUSION_SEL`. -/
def DEFAULT_INCLUSION_SEL : ℚ := 1 / 200

/-- `CLAMP_PROBABILITY` of selfuncs.h. -/
def clampProb (x : ℚ) : ℚ :=
  if x < 0 then 0 else if x > 1 then 1 else x

/-- `inet_masklen_inclusion_cmp`: 0 when the masklen relation agrees with
the operator, otherwise the operator's order. -/
def inet_masklen_inclusion_cmp (l r : Inet) (oprOrder : Int) : Int :=
  if l.family = r.family then
    let o : Int := (l.bits : Int) - (r.bits : Int)
    if (o > 0 ∧ oprOrder ≥ 0) ∨ (o = 0 ∧ oprOrder ≥ -1 ∧ oprOrder ≤ 1) ∨
        (o < 0 ∧ oprOrder ≤ 0) then 0
    else oprOrder
  else (l.family : Int) - (r.family : Int)

/-- `inet_inclusion_cmp`: common network bits first, then the masklen
comparison. -/
def inet_inclusion_cmp (l r : Inet) (oprOrder : Int) : Int :=
  if l.family = r.family then
    let o := bitncmp l.addr r.addr (min l.bits r.bits)
    if o ≠ 0 then o else inet_masklen_inclusion_cmp l r oprOrder
  else (l.family : Int) - (r.family : Int)

/-- `inet_hist_match_divider`: `-1` when no divider is available. -/
def inet_hist_match_divider (histv query : Inet) (oprOrder : Int) : Int :=
  if inet_masklen_inclusion_cmp histv query oprOrder = 0 then
    let minBits := min histv.bits query.bits
    let decisive : Int :=
      if oprOrder < 0 then (histv.bits : Int)
      else if oprOrder > 0 then (query.bits : Int)
      else (minBits : Int)
    if minBits > 0 then
      decisive - (bitncommon histv.addr query.addr minBits : Int)
    else decisive
  else -1

/-- The bucket loop of `inet_hist_inclusion_selectivity`, carrying the
left boundary, the left order (initially `-255`) and the accumulated
match weight. -/
def inclusionLoop (query : Inet) (nd : ℚ) (oprOrder : Int) :
    List Inet → Option Inet → Int → ℚ → ℚ
  | [], _, _, m => m
  | rightv :: rest, leftv?, leftOrder, m =>
    let rightOrder := inet_inclusion_cmp rightv query oprOrder
    let m' :=
      if rightOrder = 0 then
        if leftOrder = 0 then m + 1
        else if nd > 0 then m + 1 / nd else m
      else
        match leftv? with
        | some leftv =>
          if (rightOrder > 0 ∧ leftOrder ≤ 0) ∨
              (rightOrder < 0 ∧ leftOrder ≥ 0) then
            let ld := inet_hist_match_divider leftv query oprOrder
            let rd := inet_hist_match_divider rightv query oprOrder
            if ld > rd ∧ ld > 0 then m + 1 / (2 : ℚ) ^ ld
            else if rd > 0 then m + 1 / (2 : ℚ) ^ rd
            else m
          else m
        | none => m
    inclusionLoop query nd oprOrder rest (some rightv) rightOrder m'

/-- `inet_hist_inclusion_selectivity`: `-1` without a histogram, otherwise
the accumulated match weight over `nvalues - 1 + 1 / ndistinct`. -/
def inet_hist_inclusion_selectivity (hist : Option (List Inet))
    (query : Inet) (nd : ℚ) (oprOrder : Int) : ℚ :=
  match hist with
  | none => -1
  | some values =>
    let m := inclusionLoop query nd oprOrder values none (-255) 0
    let divider := ((values.length : ℚ) - 1) + (if nd > 0 then 1 / nd else 0)
    m / divider

/-- `inetinclusionsel`: the entry point for the subnet inclusion (and, in
this revision, overlap) operators.  The first four parameters model the
host-side outcomes: a usable `(variable op constant)` shape, a constant
argument, a null constant, and a valid statistics tuple. -/
def inetinclusionsel (restrictionOk constOk constNull hasStats
    isOverlapOp : Bool) (nullfrac nd mcvMatch mcvTotal : ℚ)
    (hist : Option (List Inet)) (query : Inet) (oprOrder : Int) : ℚ :=
  let deflt := if isOverlapOp then DEFAULT_OVERLAP_SEL else DEFAULT_INCLUSION_SEL
  if !restrictionOk then deflt
  else if !constOk then deflt
  else if constNull then 0
  else if !hasStats then deflt
  else
    let maxHistSelec := 1 - nullfrac - mcvTotal
    if maxHistSelec / mcvTotal < mcvMatch then mcvMatch / (1 - maxHistSelec)
    else
      let histSelec := inet_hist_inclusion_selectivity hist query nd oprOrder
      if histSelec < 0 then
        if mcvTotal > 0 then mcvMatch / (1 - maxHistSelec) else deflt
      else clampProb (mcvMatch + maxHistSelec * histSelec)

/-- The bucket loop of `inet_hist_overlap_selectivity` of the
`network_overlap_selectivity` revision.  `prevRmb` carries the value of
the C variable `right_min_bits` from the previous iteration, which the C
code leaves unchanged when the bucket's family differs from the
constant's (it is uninitialized before the first family match; the model
starts it at 0). -/
def overlapLoop (family bits : Nat) (caddr : Nat → Bool) (nd : ℚ) :
    List Inet → Option Inet → Nat → Int → Nat → ℚ → ℚ
  | [], _, _, _, _, m => m
  | rightv :: rest, leftv?, leftMinBits, leftOrder, prevRmb, m =>
    let rmb := if rightv.family = family then min rightv.bits bits else prevRmb
    let rightOrder : Int :=
      if rightv.family = family then
        if min rightv.bits bits = 0 then 0
        else bitncmp rightv.addr caddr (min rightv.bits bits)
      else if rightv.family > family then 1
      else -1
    let m' :=
      if rightOrder = 0 then
        if leftOrder = 0 then m + 1
        else if nd > 0 then m + (if (1 : ℚ) > nd then 1 else 0) else m
      else
        match leftv? with
        | some leftv =>
          if (rightOrder > 0 ∧ leftOrder ≤ 0) ∨
              (rightOrder < 0 ∧ leftOrder ≥ 0) then
            let lcb :=
              if leftMinBits = 0 ∨ leftv.family ≠ family then 0
              else bitncommon leftv.addr caddr leftMinBits
            let rcb :=
              if rmb = 0 ∨ leftv.family ≠ family then 0
              else bitncommon rightv.addr caddr rmb
            let divider : Int := (max leftMinBits rmb : Int) - (max lcb rcb : Int)
            m + 1 / (2 : ℚ) ^ divider
          else m
        | none => m
    overlapLoop family bits caddr nd rest (some rightv) rmb rightOrder rmb m'

/-- `inet_hist_overlap_selectivity`: 0 without a histogram, otherwise the
accumulated match weight over `nvalues - 1 + 1 / ndistinct`. -/
def inet_hist_overlap_selectivity (hist : Option (List Inet)) (c : Inet)
    (nd : ℚ) : ℚ :=
  match hist with
  | none => 0
  | some values =>
    let m := overlapLoop c.family c.bits c.addr nd values none 0 1 0 0
    let divider := ((values.length : ℚ) - 1) + (if nd > 0 then 1 / nd else 0)
    m / divider

/-- `network_overlap_selectivity`: the overlap-operator entry point of the
`network_overlap_selectivity` revision. -/
def network_overlap_selectivity (restrictionOk constOk constNull
    hasStats : Bool) (nullfrac nd mcvMatch mcvTotal : ℚ)
    (hist : Option (List Inet)) (c : Inet) : ℚ :=
  if !restrictionOk then DEFAULT_OVERLAP_SEL
  else if !constOk then DEFAULT_OVERLAP_SEL
  else if constNull then 0
  else if !hasStats then DEFAULT_OVERLAP_SEL
  else
    let histSelecCap := 1 - nullfrac - mcvTotal
    if histSelecCap / mcvTotal < mcvMatch then mcvMatch / (1 - histSelecCap)
    else
      clampProb (mcvMatch + histSelecCap * inet_hist_overlap_selectivity hist c nd)

/-- `network_adjacent_selectivity`: one minus the overlap selectivity of
the negator (the negator-less case raises an error and returns nothing,
so it contributes no return value). -/
def network_adjacent_selectivity (restrictionOk constOk constNull
    hasStats : Bool) (nullfrac nd mcvMatch mcvTotal : ℚ)
    (hist : Option (List Inet)) (c : Inet) : ℚ :=
  1 - network_overlap_selectivity restrictionOk constOk constNull hasStats
    nullfrac nd mcvMatch mcvTotal hist c

/-! ## Geometry lemmas -/

theorem udLe_fin_fin {a b : ℚ} : udLe (.fin a) (.fin b) = true ↔ a ≤ b := by
  simp [udLe]

theorem getQuadrant_testBit (C B : BoxT) :
    (getQuadrant C B).testBit 3 = decide (C.low.x < B.low.x) ∧
      (getQuadrant C B).testBit 2 = decide (C.high.x < B.high.x) ∧
      (getQuadrant C B).testBit 1 = decide (C.low.y < B.low.y) ∧
      (getQuadrant C B).testBit 0 = decide (C.high.y < B.high.y) := by
  unfold getQuadrant
  by_cases h1 : C.low.x < B.low.x <;> by_cases h2 : C.high.x < B.high.x <;>
    by_cases h3 : C.low.y < B.low.y <;> by_cases h4 : C.high.y < B.high.y <;>
    simp [h1, h2, h3, h4] <;> decide

theorem getQuadrant_lt_16 (C B : BoxT) : getQuadrant C B < 16 := by
  unfold getQuadrant
  split_ifs <;> norm_num

/-- Tightening one axis by the centroid and the box's own comparison bits
keeps both projections of the box inside the axis intervals. -/
theorem evalRangeBox_keeps (rbU : RangeBoxU) (c : RangeQ) (lowv highv : ℚ)
    (h1 : udLe rbU.left.low (.fin lowv) = true)
    (h2 : udLe (.fin lowv) rbU.left.high = true)
    (h3 : udLe rbU.right.low (.fin highv) = true)
    (h4 : udLe (.fin highv) rbU.right.high = true) :
    udLe (evalRangeBox rbU c (decide (c.low < lowv))
        (decide (c.high < highv))).left.low (.fin lowv) = true ∧
      udLe (.fin lowv) (evalRangeBox rbU c (decide (c.low < lowv))
        (decide (c.high < highv))).left.high = true ∧
      udLe (evalRangeBox rbU c (decide (c.low < lowv))
        (decide (c.high < highv))).right.low (.fin highv) = true ∧
      udLe (.fin highv) (evalRangeBox rbU c (decide (c.low < lowv))
        (decide (c.high < highv))).right.high = true := by
  by_cases hl : c.low < lowv <;> by_cases hh : c.high < highv <;>
    simp [evalRangeBox, hl, hh, udLe_fin_fin, h1, h2, h3, h4,
      le_of_lt, not_lt.mp]

/-- A box inside a traversal value stays inside the traversal value of its
own quadrant. -/
theorem inRect_evalRect (B C : BoxT) (R : RectBox)
    (h : inRectBox B R = true) :
    inRectBox B (evalRectBox R (boxToRangeBox C) (getQuadrant C B)) = true := by
  obtain ⟨t3, t2, t1, t0⟩ := getQuadrant_testBit C B
  unfold inRectBox at h ⊢
  simp only [Bool.and_eq_true] at h ⊢
  obtain ⟨⟨⟨⟨⟨⟨⟨hx1, hx2⟩, hx3⟩, hx4⟩, hy1⟩, hy2⟩, hy3⟩, hy4⟩ := h
  unfold evalRectBox
  rw [t3, t2, t1, t0]
  have hx := evalRangeBox_keeps R.range_box_x (boxToRangeBox C).left
    B.low.x B.high.x hx1 hx2 hx3 hx4
  have hy := evalRangeBox_keeps R.range_box_y (boxToRangeBox C).right
    B.low.y B.high.y hy1 hy2 hy3 hy4
  simp only [boxToRangeBox] at hx hy
  exact ⟨⟨⟨⟨⟨⟨⟨hx.1, hx.2.1⟩, hx.2.2.1⟩, hx.2.2.2⟩, hy.1⟩, hy.2.1⟩,
    hy.2.2.1⟩, hy.2.2.2⟩

/-- C2.  For every box `B` and centroid `C`, the quadrant computed by the
choose / pick-split code is the 4-bit code whose bit 3 is
`B.low.x > C.low.x`, bit 2 is `B.high.x > C.high.x`, bit 1 is
`B.low.y > C.low.y` and bit 0 is `B.high.y > C.high.y` (hence < 16), the
pick-split tuple map places every box by that code, and for every parent
bounding region `R` containing `B`, the region obtained by tightening `R`
with `C` and that quadrant still contains `B` (a 0 bit installs the
centroid value as the new upper bound of the projection, a 1 bit as the
new lower bound, the other bounds being inherited). -/
theorem quadrant_code_and_tightening (B C : BoxT) (R : RectBox) :
    (getQuadrant C B < 16 ∧
      (getQuadrant C B).testBit 3 = decide (C.low.x < B.low.x) ∧
      (getQuadrant C B).testBit 2 = decide (C.high.x < B.high.x) ∧
      (getQuadrant C B).testBit 1 = decide (C.low.y < B.low.y) ∧
      (getQuadrant C B).testBit 0 = decide (C.high.y < B.high.y)) ∧
    (∀ boxes : List BoxT,
      picksplitNodeMap boxes =
        boxes.map (fun b => getQuadrant (picksplitCentroid boxes) b)) ∧
    (inRectBox B R = true →
      inRectBox B (evalRectBox R (boxToRangeBox C) (getQuadrant C B)) = true) := by
  refine ⟨⟨getQuadrant_lt_16 C B, getQuadrant_testBit C B⟩, ?_, ?_⟩
  · intro boxes
    rfl
  · exact inRect_evalRect B C R

/-- Witness for the tightening claim: a concrete box, centroid and region. -/
theorem quadrant_code_and_tightening_witness :
    inRectBox ⟨⟨0, 0⟩, ⟨1, 1⟩⟩ initialRectBox = true ∧
      inRectBox ⟨⟨0, 0⟩, ⟨1, 1⟩⟩
        (evalRectBox initialRectBox (boxToRangeBox ⟨⟨2, -1⟩, ⟨3, 0⟩⟩)
          (getQuadrant ⟨⟨2, -1⟩, ⟨3, 0⟩⟩ ⟨⟨0, 0⟩, ⟨1, 1⟩⟩)) = true :=
  ⟨by decide,
    (quadrant_code_and_tightening ⟨⟨0, 0⟩, ⟨1, 1⟩⟩ ⟨⟨2, -1⟩, ⟨3, 0⟩⟩
      initialRectBox).2.2 (by decide)⟩

/-- C7.  `intersect2D` is true exactly when the region's high bound is at
least the query's low bound and the region's low bound is at most the
query's high bound; comparisons between finite bounds are exact, the
infinities resolve in the obvious direction, and `intersect4D` is the
conjunction of the two per-axis results. -/
theorem intersect2D_iff (query : RangeQ) (rb : RangeBoxU)
    (rect : RangeBoxQ) (R : RectBox) (a b : ℚ) (u : UD) :
    (intersect2D query rb = true ↔
      udLe (.fin query.low) rb.right.high = true ∧
        udLe rb.left.low (.fin query.high) = true) ∧
    (udLe (.fin a) (.fin b) = true ↔ a ≤ b) ∧
    (udLe u .pinf = true ∧ udLe .ninf u = true) ∧
    intersect4D rect R =
      (intersect2D rect.left R.range_box_x &&
        intersect2D rect.right R.range_box_y) := by
  refine ⟨?_, udLe_fin_fin, ⟨?_, ?_⟩, rfl⟩
  · simp [intersect2D]
  · cases u <;> simp [udLe]
  · simp [udLe]

/-! ## Network range tree theorems -/

/-- C5's reading of the equality test: family, bits, and only the first
`bits` address bits.  Stated from the claim's words, to be compared with
`inet_gist_same`. -/
def inetSameClaim (l r : Inet) : Bool :=
  r.family = l.family ∧ r.bits = l.bits ∧ bitncmp l.addr r.addr l.bits = 0

/-- The address 10.0.0.0 (bits 4 and 6 set, MSB first). -/
def addr_10_0_0_0 : Nat → Bool := fun i => i == 4 || i == 6

/-- The address 10.0.0.1 (additionally bit 31 set). -/
def addr_10_0_0_1 : Nat → Bool := fun i => i == 4 || i == 6 || i == 31

/-- The address 10.1.0.0 (additionally bit 15 set). -/
def addr_10_1_0_0 : Nat → Bool := fun i => i == 4 || i == 6 || i == 15

/-- The network 10.0.0.0/8 (IPv4 family 2). -/
def cidr_10_0_0_8 : Inet := ⟨PGSQL_AF_INET, 8, addr_10_0_0_0⟩

/-- The value 10.0.0.1/8. -/
def inet_10_0_0_1_8 : Inet := ⟨PGSQL_AF_INET, 8, addr_10_0_0_1⟩

/-- The value 10.1.0.0/16. -/
def inet_10_1_0_0_16 : Inet := ⟨PGSQL_AF_INET, 16, addr_10_1_0_0⟩

/-- Counterexample to C5 as stated: 10.0.0.0/8 and 10.0.0.1/8 have the
same family, the same bits and identical first 8 address bits, yet
`inet_gist_same` reports them different (it compares all 32 bits). -/
theorem inet_gist_same_counterexample :
    inetSameClaim cidr_10_0_0_8 inet_10_0_0_1_8 = true ∧
      inet_gist_same cidr_10_0_0_8 inet_10_0_0_1_8 = false := by
  constructor <;> decide

/-- C5 amended.  `inet_gist_same` reports two keys equal iff their
families are identical, their bits are identical, and their addresses
agree on the whole address width `ip_maxbits` (not merely the first
`bits` bits). -/
theorem inet_gist_same_iff (l r : Inet) :
    inet_gist_same l r = true ↔
      (r.family = l.family ∧ r.bits = l.bits ∧
        ∀ i < ip_maxbits l, l.addr i = r.addr i) := by
  simp [inet_gist_same, bitncmp_eq_zero_iff]

/-- C4.  The penalty is 4 for differing families; 3 when families match
but a netmask is empty; 2 when families match, netmasks are non-empty and
no address bit is shared; `1 / commonbits` when `commonbits > 0` bits are
shared within the smaller netmask; and the cost bands are ordered (the
shared-bits case always lies in `(0, 1]`, below 2, 3 and 4). -/
theorem penalty_cases (orig new : Inet) :
    (orig.family ≠ new.family → inet_gist_penalty orig new = 4) ∧
    (orig.family = new.family → (orig.bits = 0 ∨ new.bits = 0) →
      inet_gist_penalty orig new = 3) ∧
    (orig.family = new.family → 0 < orig.bits → 0 < new.bits →
      bitncommon orig.addr new.addr (min orig.bits new.bits) = 0 →
      inet_gist_penalty orig new = 2) ∧
    (orig.family = new.family → 0 < orig.bits → 0 < new.bits →
      0 < bitncommon orig.addr new.addr (min orig.bits new.bits) →
      inet_gist_penalty orig new =
        1 / (bitncommon orig.addr new.addr (min orig.bits new.bits) : ℚ)) ∧
    (inet_gist_penalty orig new = 4 ∨ inet_gist_penalty orig new = 3 ∨
      inet_gist_penalty orig new = 2 ∨
      (0 < inet_gist_penalty orig new ∧ inet_gist_penalty orig new ≤ 1)) := by
  have case4 : orig.family ≠ new.family → inet_gist_penalty orig new = 4 := by
    intro h
    unfold inet_gist_penalty
    rw [if_neg h]
  have case3 : orig.family = new.family → (orig.bits = 0 ∨ new.bits = 0) →
      inet_gist_penalty orig new = 3 := by
    intro h hz
    unfold inet_gist_penalty
    rw [if_pos h, if_neg (by omega)]
  have case2 : orig.family = new.family → 0 < orig.bits → 0 < new.bits →
      bitncommon orig.addr new.addr (min orig.bits new.bits) = 0 →
      inet_gist_penalty orig new = 2 := by
    intro h h1 h2 hc
    unfold inet_gist_penalty
    rw [if_pos h, if_pos (by omega), if_neg (by omega)]
  have case1 : orig.family = new.family → 0 < orig.bits → 0 < new.bits →
      0 < bitncommon orig.addr new.addr (min orig.bits new.bits) →
      inet_gist_penalty orig new =
        1 / (bitncommon orig.addr new.addr (min orig.bits new.bits) : ℚ) := by
    intro h h1 h2 hc
    unfold inet_gist_penalty
    rw [if_pos h, if_pos (by omega), if_pos hc]
  refine ⟨case4, case3, case2, case1, ?_⟩
  by_cases hf : orig.family = new.family
  · by_cases hz : orig.bits = 0 ∨ new.bits = 0
    · right; left; exact case3 hf hz
    · have h1 : 0 < orig.bits := by omega
      have h2 : 0 < new.bits := by omega
      by_cases hc : bitncommon orig.addr new.addr (min orig.bits new.bits) = 0
      · right; right; left; exact case2 hf h1 h2 hc
      · right; right; right
        have hcp : 0 < bitncommon orig.addr new.addr (min orig.bits new.bits) := by
          omega
        rw [case1 hf h1 h2 hcp]
        have hcq : (1 : ℚ) ≤
            (bitncommon orig.addr new.addr (min orig.bits new.bits) : ℚ) := by
          exact_mod_cast hcp
        constructor
        · positivity
        · rw [div_le_one (by linarith)]
          linarith
  · left; exact case4 hf

/-- Witness for C4 at concrete inputs: inserting 10.1.0.0/16 under
10.0.0.0/8 costs 1/8. -/
theorem penalty_cases_witness :
    inet_gist_penalty cidr_10_0_0_8 inet_10_1_0_0_16 = 1 / 8 := by
  have h := (penalty_cases cidr_10_0_0_8 inet_10_1_0_0_16).2.2.2.1
    (by decide) (by decide) (by decide) (by decide)
  rw [h]
  have hcb : bitncommon cidr_10_0_0_8.addr inet_10_1_0_0_16.addr
      (min cidr_10_0_0_8.bits inet_10_1_0_0_16.bits) = 8 := by decide
  rw [hcb]
  norm_num

/-! ## Network prefix tree theorems -/

/-- C8.  The node number has the +2 bit set iff the value's netmask is
longer than the node's common bits, and the +1 bit set iff the address
extends beyond the common bits and its bit there is set; concretely,
10.1.0.0/16 under the prefix 10.0.0.0/8 (whose bits field, the
`commonbits` used by choose, is 8) is matched to node 2. -/
theorem node_number_characterization (v : Inet) (c : Nat) :
    ((inet_spg_node_number v c) &&& 2 = 2 ↔ c < v.bits) ∧
    ((inet_spg_node_number v c) &&& 1 = 1 ↔
      (c < ip_maxbits v ∧ v.addr c = true)) ∧
    cidr_10_0_0_8.bits = 8 ∧
    inet_spg_node_number inet_10_1_0_0_16 8 = 2 ∧
    inet_spg_choose true false inet_10_1_0_0_16 cidr_10_0_0_8 =
      .matchNode 2 := by
  refine ⟨?_, ?_, rfl, by decide, by decide⟩
  · unfold inet_spg_node_number
    by_cases h1 : c < ip_maxbits v ∧ v.addr c = true <;>
      by_cases h2 : c < v.bits <;> simp [h1, h2] <;> try decide
  · unfold inet_spg_node_number
    by_cases h1 : c < ip_maxbits v ∧ v.addr c = true <;>
      by_cases h2 : c < v.bits <;> simp [h1, h2] <;> try decide

/-! ## Box pick-split median theorems -/

/-- Element at a given index of the sorted projection of a box list
(the naive sort-and-index reference of C6). -/
def sortedProjAt (boxes : List BoxT) (proj : BoxT → ℚ) (idx : Nat) : ℚ :=
  ((boxes.map proj).insertionSort (· ≤ ·)).getD idx 0

/-- Four boxes whose `low.x` projections are 0, 2, 1, 3. -/
def boxesCex : List BoxT :=
  [⟨⟨0, 0⟩, ⟨1, 1⟩⟩, ⟨⟨2, 2⟩, ⟨3, 3⟩⟩, ⟨⟨1, 2⟩, ⟨2, 3⟩⟩, ⟨⟨3, 0⟩, ⟨4, 1⟩⟩]

/-- Counterexample to the "lower median" gloss of C6: for n = 4 the code
takes sorted index n / 2 = 2, which is the upper of the two middle
elements (here 2), not the lower median at index (n - 1) / 2 (here 1). -/
theorem picksplit_median_counterexample :
    (picksplitCentroid boxesCex).low.x =
        sortedProjAt boxesCex (fun b => b.low.x) (boxesCex.length / 2) ∧
      sortedProjAt boxesCex (fun b => b.low.x) (boxesCex.length / 2) = 2 ∧
      sortedProjAt boxesCex (fun b => b.low.x) ((boxesCex.length - 1) / 2) = 1 ∧
      (picksplitCentroid boxesCex).low.x ≠
        sortedProjAt boxesCex (fun b => b.low.x) ((boxesCex.length - 1) / 2) := by
  refine ⟨rfl, ?_, ?_, ?_⟩ <;> decide

/-- C6 amended.  For every non-empty list of boxes, the pick-split
centroid is the coordinate-wise element at sorted index ⌊n/2⌋ (for even
n, the upper of the two middle elements): whenever `s₁ … s₄` are sorted
rearrangements of the four coordinate projections, the centroid is built
from their entries at index ⌊n/2⌋, matching the naive sort-and-index
reference regardless of the sorting algorithm used. -/
theorem picksplit_centroid_median (boxes : List BoxT) (hne : boxes ≠ [])
    (s1 s2 s3 s4 : List ℚ)
    (h1p : s1.Perm (boxes.map (fun b => b.low.x)))
    (h1s : s1.Sorted (· ≤ ·))
    (h2p : s2.Perm (boxes.map (fun b => b.high.x)))
    (h2s : s2.Sorted (· ≤ ·))
    (h3p : s3.Perm (boxes.map (fun b => b.low.y)))
    (h3s : s3.Sorted (· ≤ ·))
    (h4p : s4.Perm (boxes.map (fun b => b.high.y)))
    (h4s : s4.Sorted (· ≤ ·)) :
    picksplitCentroid boxes =
      { low :=
          { x := s1.getD (boxes.length / 2) 0
            y := s3.getD (boxes.length / 2) 0 }
        high :=
          { x := s2.getD (boxes.length / 2) 0
            y := s4.getD (boxes.length / 2) 0 } } := by
  have key : ∀ l s : List ℚ, s.Perm l → s.Sorted (· ≤ ·) →
      s = l.insertionSort (· ≤ ·) := by
    intro l s hp hs
    exact List.eq_of_perm_of_sorted
      (hp.trans (List.perm_insertionSort _ _).symm) hs
      (List.sorted_insertionSort _ _)
  rw [key _ _ h1p h1s, key _ _ h2p h2s, key _ _ h3p h3s, key _ _ h4p h4s]
  rfl

/-- Witness instantiating the median theorem on a concrete list. -/
theorem picksplit_centroid_median_witness :
    picksplitCentroid [⟨⟨1, 2⟩, ⟨3, 4⟩⟩] =
      { low := { x := 1, y := 2 }, high := { x := 3, y := 4 } } := by
  have h := picksplit_centroid_median [⟨⟨1, 2⟩, ⟨3, 4⟩⟩] (by decide)
    [1] [3] [2] [4] (by decide) (by decide) (by decide) (by decide)
    (by decide) (by decide) (by decide) (by decide)
  simpa using h

/-! ## Union theorems -/

theorem le_bitncommon_of_agree {l r : Nat → Bool} {c n : Nat} (hcn : c ≤ n)
    (h : ∀ i < c, l i = r i) : c ≤ bitncommon l r n := by
  by_contra hcon
  push_neg at hcon
  exact bitncommon_stop (by omega) (h _ hcon)

/-- The union bits as the spec words them: the minimum of all the netmask
lengths, then narrowed to the bits common to all the addresses. -/
def unionBitsSpec (e : Inet) (es : List Inet) : Nat :=
  es.foldl (fun c t => bitncommon e.addr t.addr c)
    (es.foldl (fun b t => min b t.bits) e.bits)

theorem unionLoop_fst_same (a : Nat → Bool) :
    ∀ (es : List Inet) (f b : Nat), (∀ t ∈ es, t.family = f) →
      (inetUnionLoop a f b es).1 = f := by
  intro es
  induction es with
  | nil => intro f b _; rfl
  | cons t r ih =>
    intro f b hall
    unfold inetUnionLoop
    rw [if_neg (by simp [hall t (by simp)])]
    exact ih f _ (fun t' ht' => hall t' (by simp [ht']))

theorem unionLoop_mixed (a : Nat → Bool) :
    ∀ (es : List Inet) (f b : Nat), (∃ t ∈ es, t.family ≠ f) →
      inetUnionLoop a f b es = (0, 0) := by
  intro es
  induction es with
  | nil => intro f b h; simp at h
  | cons t r ih =>
    intro f b hex
    unfold inetUnionLoop
    by_cases ht : t.family = f
    · rw [if_neg (by simp [ht])]
      apply ih
      obtain ⟨t', ht', hne⟩ := hex
      rcases List.mem_cons.mp ht' with h | h
      · exact absurd (h ▸ ht) hne
      · exact ⟨t', h, hne⟩
    · rw [if_pos (by simp [ht])]

theorem unionStepBits_eq (a : Nat → Bool) (t : Inet) (b : Nat) :
    unionStepBits a t b = bitncommon a t.addr (min b t.bits) := by
  unfold unionStepBits
  dsimp only
  have hmin : (if b > t.bits then t.bits else b) = min b t.bits := by
    split <;> omega
  rw [hmin]
  split
  · rfl
  · rename_i hz
    push_neg at hz
    rw [hz]
    rfl

theorem unionStepBits_le_left (a : Nat → Bool) (t : Inet) (b : Nat) :
    unionStepBits a t b ≤ b := by
  rw [unionStepBits_eq]
  exact le_trans (bitncommon_le _ _ _) (Nat.min_le_left _ _)

theorem unionStepBits_le_right (a : Nat → Bool) (t : Inet) (b : Nat) :
    unionStepBits a t b ≤ t.bits := by
  rw [unionStepBits_eq]
  exact le_trans (bitncommon_le _ _ _) (Nat.min_le_right _ _)

theorem unionStepBits_agree (a : Nat → Bool) (t : Inet) (b : Nat) :
    ∀ i < unionStepBits a t b, a i = t.addr i := by
  intro i hi
  rw [unionStepBits_eq] at hi
  exact bitncommon_agree hi

theorem unionStepBits_ge (a : Nat → Bool) (t : Inet) (b c : Nat)
    (hc : c ≤ b) (ht : c ≤ t.bits) (hagree : ∀ i < c, a i = t.addr i) :
    c ≤ unionStepBits a t b := by
  rw [unionStepBits_eq]
  exact le_bitncommon_of_agree (by omega) hagree

theorem unionLoop_snd_le_init (a : Nat → Bool) :
    ∀ (es : List Inet) (f b : Nat), (inetUnionLoop a f b es).2 ≤ b := by
  intro es
  induction es with
  | nil => intro f b; exact le_rfl
  | cons t r ih =>
    intro f b
    unfold inetUnionLoop
    split
    · simp
    · exact le_trans (ih f _) (unionStepBits_le_left a t b)

theorem unionLoop_snd_le_mem (a : Nat → Bool) :
    ∀ (es : List Inet) (f b : Nat) (t : Inet), t ∈ es →
      (inetUnionLoop a f b es).2 ≤ t.bits := by
  intro es
  induction es with
  | nil => intro f b t ht; simp at ht
  | cons u r ih =>
    intro f b t ht
    unfold inetUnionLoop
    split
    · simp
    · rcases List.mem_cons.mp ht with h | h
      · subst h
        exact le_trans (unionLoop_snd_le_init a r f _)
          (unionStepBits_le_right a t b)
      · exact ih f _ t h

theorem unionLoop_agree (a : Nat → Bool) :
    ∀ (es : List Inet) (f b : Nat) (t : Inet), t ∈ es →
      ∀ i < (inetUnionLoop a f b es).2, a i = t.addr i := by
  intro es
  induction es with
  | nil => intro f b t ht; simp at ht
  | cons u r ih =>
    intro f b t ht i hi
    unfold inetUnionLoop at hi
    split at hi
    · simp at hi
    · rcases List.mem_cons.mp ht with h | h
      · subst h
        have hle : i < unionStepBits a t b :=
          lt_of_lt_of_le hi (unionLoop_snd_le_init a r f _)
        exact unionStepBits_agree a t b i hle
      · exact ih f _ t h i hi

theorem unionLoop_snd_ge (a : Nat → Bool) :
    ∀ (es : List Inet) (f b c : Nat), c ≤ b →
      (∀ t ∈ es, c ≤ t.bits) → (∀ t ∈ es, ∀ i < c, a i = t.addr i) →
      (∀ t ∈ es, t.family = f) → c ≤ (inetUnionLoop a f b es).2 := by
  intro es
  induction es with
  | nil => intro f b c hc _ _ _; exact hc
  | cons t r ih =>
    intro f b c hc hbits hagree hfam
    unfold inetUnionLoop
    rw [if_neg (by simp [hfam t (by simp)])]
    apply ih
    · exact unionStepBits_ge a t b c hc (hbits t (by simp)) (hagree t (by simp))
    · exact fun t' ht' => hbits t' (by simp [ht'])
    · exact fun t' ht' => hagree t' (by simp [ht'])
    · exact fun t' ht' => hfam t' (by simp [ht'])

theorem minFold_le_init (es : List Inet) :
    ∀ b, es.foldl (fun b t => min b t.bits) b ≤ b := by
  induction es with
  | nil => intro b; exact le_rfl
  | cons t r ih =>
    intro b
    exact le_trans (ih _) (by simp [Nat.min_le_left])

theorem minFold_le_mem (es : List Inet) :
    ∀ b t, t ∈ es → es.foldl (fun b t => min b t.bits) b ≤ t.bits := by
  induction es with
  | nil => intro b t ht; simp at ht
  | cons u r ih =>
    intro b t ht
    rcases List.mem_cons.mp ht with h | h
    · subst h
      exact le_trans (minFold_le_init r _) (by simp [Nat.min_le_right])
    · exact ih _ t h

theorem minFold_ge (es : List Inet) :
    ∀ b c, c ≤ b → (∀ t ∈ es, c ≤ t.bits) →
      c ≤ es.foldl (fun b t => min b t.bits) b := by
  induction es with
  | nil => intro b c hc _; exact hc
  | cons t r ih =>
    intro b c hc hall
    refine ih _ c (by simp [hc, hall t (by simp)]) ?_
    exact fun t' ht' => hall t' (by simp [ht'])

theorem commonFold_le_init (e : Inet) (es : List Inet) :
    ∀ c, es.foldl (fun c t => bitncommon e.addr t.addr c) c ≤ c := by
  induction es with
  | nil => intro c; exact le_rfl
  | cons t r ih =>
    intro c
    exact le_trans (ih _) (bitncommon_le _ _ _)

theorem commonFold_agree (e : Inet) (es : List Inet) :
    ∀ c t, t ∈ es →
      ∀ i < es.foldl (fun c t => bitncommon e.addr t.addr c) c,
        e.addr i = t.addr i := by
  induction es with
  | nil => intro c t ht; simp at ht
  | cons u r ih =>
    intro c t ht i hi
    rcases List.mem_cons.mp ht with h | h
    · subst h
      have hle : List.foldl (fun c t => bitncommon e.addr t.addr c)
          (bitncommon e.addr t.addr c) r ≤ bitncommon e.addr t.addr c :=
        commonFold_le_init e r _
      exact bitncommon_agree (lt_of_lt_of_le hi hle)
    · exact ih _ t h i hi

theorem commonFold_ge (e : Inet) (es : List Inet) :
    ∀ c d, d ≤ c → (∀ t ∈ es, ∀ i < d, e.addr i = t.addr i) →
      d ≤ es.foldl (fun c t => bitncommon e.addr t.addr c) c := by
  induction es with
  | nil => intro c d hd _; exact hd
  | cons t r ih =>
    intro c d hd hall
    refine ih _ d (le_bitncommon_of_agree hd (hall t (by simp))) ?_
    exact fun t' ht' => hall t' (by simp [ht'])

/-- In the single-family case the loop's bit count equals the spec's
min-then-common formulation. -/
theorem unionLoop_snd_spec (e : Inet) (es : List Inet)
    (hfam : ∀ t ∈ es, t.family = e.family) :
    (inetUnionLoop e.addr e.family e.bits es).2 = unionBitsSpec e es := by
  unfold unionBitsSpec
  apply le_antisymm
  · apply commonFold_ge
    · apply minFold_ge
      · exact unionLoop_snd_le_init e.addr es e.family e.bits
      · exact fun t ht => unionLoop_snd_le_mem e.addr es e.family e.bits t ht
    · exact fun t ht i hi => unionLoop_agree e.addr es e.family e.bits t ht i hi
  · apply unionLoop_snd_ge
    · exact le_trans (commonFold_le_init e es _) (minFold_le_init es e.bits)
    · exact fun t ht =>
        le_trans (commonFold_le_init e es _) (minFold_le_mem es e.bits t ht)
    · exact fun t ht i hi => commonFold_agree e es _ t ht i hi
    · exact hfam

/-- Subnet-or-equal coverage by a union key, `regionMayContain`-style:
the mixed-family sentinel covers everything, otherwise the union must be
a supernet-or-equal of the member. -/
def inetCovers (u t : Inet) : Prop :=
  u.family = 0 ∨
    (u.family = t.family ∧ u.bits ≤ t.bits ∧ ∀ i < u.bits, u.addr i = t.addr i)

/-- C3.  For every non-empty key set `e :: es`: a family mismatch yields
the sentinel family 0 with bits 0; a single-family set keeps the common
family (never the sentinel when the members are real values); in the
single-family case bits is the minimum netmask narrowed to the bits
common to all members; the union address agrees with every member on the
first `bits` bits and is zero beyond them; and the union of two keys
covers both. -/
theorem union_correct (e : Inet) (es : List Inet) :
    ((∃ t ∈ es, t.family ≠ e.family) →
      (inet_gist_union e es).family = 0 ∧ (inet_gist_union e es).bits = 0) ∧
    ((∀ t ∈ es, t.family = e.family) →
      (inet_gist_union e es).family = e.family) ∧
    ((∀ t ∈ es, t.family = e.family) → e.family ≠ 0 →
      (inet_gist_union e es).family ≠ 0) ∧
    ((∀ t ∈ es, t.family = e.family) →
      (inet_gist_union e es).bits = unionBitsSpec e es) ∧
    (∀ i, (inet_gist_union e es).bits ≤ i →
      (inet_gist_union e es).addr i = false) ∧
    (∀ t ∈ e :: es, ∀ i < (inet_gist_union e es).bits,
      (inet_gist_union e es).addr i = t.addr i) ∧
    (∀ A B : Inet, inetCovers (inet_gist_union A [B]) A ∧
      inetCovers (inet_gist_union A [B]) B) := by
  have haddr : ∀ i, (inet_gist_union e es).addr i =
      (if i < (inetUnionLoop e.addr e.family e.bits es).2 then e.addr i
        else false) := by
    intro i
    rfl
  have hbits : (inet_gist_union e es).bits =
      (inetUnionLoop e.addr e.family e.bits es).2 := rfl
  have hfam : (inet_gist_union e es).family =
      (inetUnionLoop e.addr e.family e.bits es).1 := rfl
  have hcov : ∀ A B : Inet, inetCovers (inet_gist_union A [B]) A ∧
      inetCovers (inet_gist_union A [B]) B := by
    intro A B
    by_cases hf : B.family = A.family
    · have hfall : ∀ t ∈ [B], t.family = A.family := by simp [hf]
      have hA : (inet_gist_union A [B]).family = A.family :=
        unionLoop_fst_same A.addr [B] A.family A.bits hfall
      constructor
      · right
        refine ⟨hA, unionLoop_snd_le_init A.addr [B] A.family A.bits, ?_⟩
        intro i hi
        have hi' : i < (inetUnionLoop A.addr A.family A.bits [B]).2 := hi
        show (if i < (inetUnionLoop A.addr A.family A.bits [B]).2 then A.addr i
          else false) = A.addr i
        rw [if_pos hi']
      · right
        refine ⟨hA.trans hf.symm,
          unionLoop_snd_le_mem A.addr [B] A.family A.bits B (by simp), ?_⟩
        intro i hi
        have hi' : i < (inetUnionLoop A.addr A.family A.bits [B]).2 := hi
        show (if i < (inetUnionLoop A.addr A.family A.bits [B]).2 then A.addr i
          else false) = B.addr i
        rw [if_pos hi']
        exact unionLoop_agree A.addr [B] A.family A.bits B (by simp) i hi'
    · have hmx : inetUnionLoop A.addr A.family A.bits [B] = (0, 0) :=
        unionLoop_mixed A.addr [B] A.family A.bits ⟨B, by simp, hf⟩
      constructor
      · left
        show (inetUnionLoop A.addr A.family A.bits [B]).1 = 0
        rw [hmx]
      · left
        show (inetUnionLoop A.addr A.family A.bits [B]).1 = 0
        rw [hmx]
  refine ⟨?_, ?_, ?_, ?_, ?_, ?_, hcov⟩
  · intro hex
    have h := unionLoop_mixed e.addr es e.family e.bits hex
    rw [hfam, hbits, h]
    exact ⟨rfl, rfl⟩
  · intro hall
    rw [hfam]
    exact unionLoop_fst_same e.addr es e.family e.bits hall
  · intro hall hne
    rw [hfam, unionLoop_fst_same e.addr es e.family e.bits hall]
    exact hne
  · intro hall
    rw [hbits]
    exact unionLoop_snd_spec e es hall
  · intro i hi
    rw [haddr i, if_neg (by rw [hbits] at hi; omega)]
  · intro t ht i hi
    rw [hbits] at hi
    rw [haddr i, if_pos hi]
    rcases List.mem_cons.mp ht with h | h
    · subst h; rfl
    · exact unionLoop_agree e.addr es e.family e.bits t h i hi

/-- Witness for C3 on concrete keys: the union of 10.0.0.1/8 and
10.1.0.0/16 keeps family 2 and has 8 bits. -/
theorem union_correct_witness :
    (inet_gist_union inet_10_0_0_1_8 [inet_10_1_0_0_16]).family = 2 ∧
      (inet_gist_union inet_10_0_0_1_8 [inet_10_1_0_0_16]).bits =
        unionBitsSpec inet_10_0_0_1_8 [inet_10_1_0_0_16] ∧
      unionBitsSpec inet_10_0_0_1_8 [inet_10_1_0_0_16] = 8 := by
  refine ⟨?_, ?_, by decide⟩
  · exact (union_correct inet_10_0_0_1_8 [inet_10_1_0_0_16]).2.1 (by decide)
  · exact (union_correct inet_10_0_0_1_8 [inet_10_1_0_0_16]).2.2.2.1 (by decide)

/-! ## Consistency-bitmap monotonicity -/

/-- `x` is a submask of `y`: every set bit of `x` is set in `y`. -/
def SubMask (x y : Nat) : Prop := x &&& y = x

theorem subMask_refl (b : Nat) : SubMask b b := Nat.and_self b

theorem subMask_zero (b : Nat) : SubMask 0 b := Nat.zero_and b

theorem subMask_and (b m : Nat) : SubMask (b &&& m) b := by
  unfold SubMask
  calc (b &&& m) &&& b = b &&& (m &&& b) := by rw [Nat.and_assoc]
    _ = b &&& (b &&& m) := by rw [Nat.and_comm m b]
    _ = (b &&& b) &&& m := by rw [Nat.and_assoc]
    _ = b &&& m := by rw [Nat.and_self]

theorem subMask_trans {a b c : Nat} (h1 : SubMask a b) (h2 : SubMask b c) :
    SubMask a c := by
  unfold SubMask at h1 h2 ⊢
  calc a &&& c = (a &&& b) &&& c := by rw [h1]
    _ = a &&& (b &&& c) := by rw [Nat.and_assoc]
    _ = a &&& b := by rw [h2]
    _ = a := h1

theorem subMask_and_left {x b : Nat} (m : Nat) (h : SubMask x b) :
    SubMask (x &&& m) b :=
  subMask_trans (subMask_and x m) h

theorem inetCheck0_submask (pfx arg : Inet) (s : InetStrategy) (bm : Nat) :
    SubMask (inetCheck0 pfx arg s bm) bm := by
  unfold inetCheck0
  cases s <;> dsimp only <;> first
    | exact subMask_refl _
    | exact subMask_zero _
    | (split_ifs <;> first | exact subMask_refl _ | exact subMask_zero _)

theorem inetCheck1_submask (c : Nat) (arg : Inet) (s : InetStrategy)
    (bm : Nat) : SubMask (inetCheck1 c arg s bm) bm := by
  unfold inetCheck1
  cases s <;> dsimp only <;> first
    | exact subMask_refl _
    | (split_ifs <;>
        first
          | exact subMask_refl _
          | exact subMask_zero _
          | exact subMask_and _ _)

theorem inetCheck2_submask (o : Int) (s : InetStrategy) (bm : Nat) :
    SubMask (inetCheck2 o s bm) bm := by
  unfold inetCheck2
  cases s <;> dsimp only <;> first
    | exact subMask_refl _
    | exact subMask_zero _
    | (split_ifs <;> first | exact subMask_refl _ | exact subMask_zero _)

theorem inetCheck3_submask (c : Nat) (arg : Inet) (s : InetStrategy)
    (bm : Nat) : SubMask (inetCheck3 c arg s bm) bm := by
  unfold inetCheck3
  split
  · cases s <;> dsimp only <;> first
      | exact subMask_refl _
      | (split_ifs <;>
          first
            | exact subMask_refl _
            | exact subMask_zero _
            | exact subMask_and _ _)
  · exact subMask_refl _

theorem inetCheck4_submask (c : Nat) (arg : Inet) (s : InetStrategy)
    (bm : Nat) : SubMask (inetCheck4 c arg s bm) bm := by
  unfold inetCheck4
  cases s <;> dsimp only <;> first
    | exact subMask_refl _
    | (split_ifs <;>
        first
          | exact subMask_refl _
          | exact subMask_zero _
          | exact subMask_and _ _)

theorem inetCheck5_submask (leaf : Bool) (c : Nat) (arg : Inet)
    (s : InetStrategy) (bm : Nat) : SubMask (inetCheck5 leaf c arg s bm) bm := by
  unfold inetCheck5
  split
  · cases s <;> dsimp only <;> first
      | exact subMask_refl _
      | (split_ifs <;>
          first
            | exact subMask_refl _
            | exact subMask_zero _
            | exact subMask_and _ _)
  · exact subMask_refl _

theorem inetCheck6_submask (pfx arg : Inet) (s : InetStrategy) (bm : Nat) :
    SubMask (inetCheck6 pfx arg s bm) bm := by
  unfold inetCheck6
  cases s <;> dsimp only <;> first
    | exact subMask_refl _
    | (split_ifs <;> first | exact subMask_refl _ | exact subMask_zero _)

/-- Every scan-key step only clears bits of the bitmap. -/
theorem inetStepKey_submask (pfx : Inet) (leaf : Bool) (s : InetStrategy)
    (a : Inet) (bm : Nat) : SubMask (inetStepKey pfx leaf s a bm) bm := by
  unfold inetStepKey
  dsimp only
  split_ifs <;>
    first
      | exact subMask_zero _
      | exact inetCheck0_submask pfx a s bm
      | exact subMask_trans (inetCheck2_submask _ s _)
          (inetCheck1_submask pfx.bits a s bm)
      | exact subMask_trans (inetCheck3_submask _ a s _)
          (inetCheck1_submask pfx.bits a s bm)
      | exact subMask_trans (subMask_trans (inetCheck4_submask _ a s _)
          (inetCheck3_submask _ a s _)) (inetCheck1_submask pfx.bits a s bm)
      | exact subMask_trans (subMask_trans (subMask_trans
          (inetCheck5_submask leaf _ a s _) (inetCheck4_submask _ a s _))
          (inetCheck3_submask _ a s _)) (inetCheck1_submask pfx.bits a s bm)
      | exact subMask_trans (subMask_trans (subMask_trans (subMask_trans
          (inetCheck6_submask pfx a s _) (inetCheck5_submask leaf _ a s _))
          (inetCheck4_submask _ a s _)) (inetCheck3_submask _ a s _))
          (inetCheck1_submask pfx.bits a s bm)

theorem inetBitmapLoop_cons (pfx : Inet) (leaf : Bool) (bm : Nat)
    (k : InetStrategy × Inet) (rest : List (InetStrategy × Inet)) :
    inetBitmapLoop pfx leaf bm (k :: rest) =
      if bm = 0 then 0
      else inetBitmapLoop pfx leaf (inetStepKey pfx leaf k.1 k.2 bm) rest :=
  rfl

/-- The scan-key loop only clears bits of its starting bitmap. -/
theorem inetBitmapLoop_submask (pfx : Inet) (leaf : Bool) :
    ∀ (keys : List (InetStrategy × Inet)) (bm : Nat),
      SubMask (inetBitmapLoop pfx leaf bm keys) bm := by
  intro keys
  induction keys with
  | nil => intro bm; exact subMask_refl bm
  | cons k rest ih =>
    intro bm
    rw [inetBitmapLoop_cons]
    split
    · exact subMask_zero bm
    · exact subMask_trans (ih _) (inetStepKey_submask pfx leaf k.1 k.2 bm)

theorem inetBitmapLoop_zero (pfx : Inet) (leaf : Bool)
    (keys : List (InetStrategy × Inet)) :
    inetBitmapLoop pfx leaf 0 keys = 0 := by
  cases keys with
  | nil => rfl
  | cons k rest =>
    rw [inetBitmapLoop_cons, if_pos rfl]

theorem inetBitmapLoop_append (pfx : Inet) (leaf : Bool) :
    ∀ (keys keys' : List (InetStrategy × Inet)) (bm : Nat),
      inetBitmapLoop pfx leaf bm (keys ++ keys') =
        inetBitmapLoop pfx leaf (inetBitmapLoop pfx leaf bm keys) keys' := by
  intro keys
  induction keys with
  | nil => intro keys' bm; rfl
  | cons k rest ih =>
    intro keys' bm
    rw [List.cons_append, inetBitmapLoop_cons, inetBitmapLoop_cons]
    split
    · rw [inetBitmapLoop_zero]
    · exact ih keys' _

/-- C10.  The consistency bitmap only clears bits: the result is a
submask of the initial mask (bits 0-3 for an inner node, bit 0 for a
leaf, so a leaf check returns 0 or 1), and extending the scan-key list
shrinks the approved set, as a submask. -/
theorem consistent_bitmap_monotone (pfx : Inet)
    (keys keys' : List (InetStrategy × Inet)) :
    SubMask (inet_spg_consistent_bitmap pfx keys false) 15 ∧
      SubMask (inet_spg_consistent_bitmap pfx keys true) 1 ∧
      (inet_spg_consistent_bitmap pfx keys true = 0 ∨
        inet_spg_consistent_bitmap pfx keys true = 1) ∧
      SubMask (inet_spg_consistent_bitmap pfx (keys ++ keys') false)
        (inet_spg_consistent_bitmap pfx keys false) ∧
      SubMask (inet_spg_consistent_bitmap pfx (keys ++ keys') true)
        (inet_spg_consistent_bitmap pfx keys true) := by
  have hleaf : SubMask (inet_spg_consistent_bitmap pfx keys true) 1 :=
    inetBitmapLoop_submask pfx true keys 1
  refine ⟨inetBitmapLoop_submask pfx false keys 15, hleaf, ?_, ?_, ?_⟩
  · have h : inet_spg_consistent_bitmap pfx keys true &&& 1 =
        inet_spg_consistent_bitmap pfx keys true := hleaf
    rw [Nat.and_one_is_mod] at h
    omega
  · unfold inet_spg_consistent_bitmap
    rw [inetBitmapLoop_append]
    exact inetBitmapLoop_submask pfx false keys' _
  · unfold inet_spg_consistent_bitmap
    rw [inetBitmapLoop_append]
    exact inetBitmapLoop_submask pfx true keys' _

/-! ## Selectivity bounds -/

theorem clampProb_mem (x : ℚ) : 0 ≤ clampProb x ∧ clampProb x ≤ 1 := by
  unfold clampProb
  split_ifs with h1 h2
  · norm_num
  · norm_num
  · constructor <;> linarith [not_lt.mp h1, not_lt.mp h2]

/-- The uncl clamped MCV correction `mcv / (1 - maxHist)` stays within
[0, 1] under the statistics invariants. -/
theorem mcvRatio_mem (m M nf : ℚ) (h0 : 0 ≤ m) (h1 : m ≤ M) (h2 : 0 ≤ nf) :
    0 ≤ m / (1 - (1 - nf - M)) ∧ m / (1 - (1 - nf - M)) ≤ 1 := by
  have he : 1 - (1 - nf - M) = nf + M := by ring
  rw [he]
  by_cases hz : nf + M = 0
  · have hm : m = 0 := le_antisymm (by linarith) h0
    rw [hz, hm]
    norm_num
  · have hpos : 0 < nf + M := lt_of_le_of_ne (by linarith) (Ne.symm hz)
    constructor
    · positivity
    · rw [div_le_one hpos]
      linarith

/-- C9.  Under the statistics invariants supplied by the host (the MCV
matching mass is between 0 and the total MCV mass, the null fraction is
non-negative, and MCV mass plus null fraction is at most 1), every value
returned by the subnet-inclusion, overlap and adjacent estimator entry
points lies in [0, 1] — on the default paths, the null-constant path,
the MCV-only correction paths and the clamped combined path, for every
histogram (present, empty or absent) and every `ndistinct`. -/
theorem selectivity_in_unit_range (restrictionOk constOk constNull hasStats
    isOverlapOp : Bool) (nullfrac nd mcvMatch mcvTotal : ℚ)
    (hist : Option (List Inet)) (q c : Inet) (oprOrder : Int)
    (h0 : 0 ≤ mcvMatch) (h1 : mcvMatch ≤ mcvTotal) (h2 : 0 ≤ nullfrac)
    (h3 : mcvTotal + nullfrac ≤ 1) :
    (0 ≤ inetinclusionsel restrictionOk constOk constNull hasStats
        isOverlapOp nullfrac nd mcvMatch mcvTotal hist q oprOrder ∧
      inetinclusionsel restrictionOk constOk constNull hasStats
        isOverlapOp nullfrac nd mcvMatch mcvTotal hist q oprOrder ≤ 1) ∧
    (0 ≤ network_overlap_selectivity restrictionOk constOk constNull
        hasStats nullfrac nd mcvMatch mcvTotal hist c ∧
      network_overlap_selectivity restrictionOk constOk constNull
        hasStats nullfrac nd mcvMatch mcvTotal hist c ≤ 1) ∧
    (0 ≤ network_adjacent_selectivity restrictionOk constOk constNull
        hasStats nullfrac nd mcvMatch mcvTotal hist c ∧
      network_adjacent_selectivity restrictionOk constOk constNull
        hasStats nullfrac nd mcvMatch mcvTotal hist c ≤ 1) := by
  have hov : 0 ≤ network_overlap_selectivity restrictionOk constOk constNull
      hasStats nullfrac nd mcvMatch mcvTotal hist c ∧
      network_overlap_selectivity restrictionOk constOk constNull
        hasStats nullfrac nd mcvMatch mcvTotal hist c ≤ 1 := by
    unfold network_overlap_selectivity
    dsimp only
    split_ifs
    · exact ⟨by norm_num [DEFAULT_OVERLAP_SEL], by norm_num [DEFAULT_OVERLAP_SEL]⟩
    · exact ⟨by norm_num [DEFAULT_OVERLAP_SEL], by norm_num [DEFAULT_OVERLAP_SEL]⟩
    · norm_num
    · exact ⟨by norm_num [DEFAULT_OVERLAP_SEL], by norm_num [DEFAULT_OVERLAP_SEL]⟩
    · exact mcvRatio_mem mcvMatch mcvTotal nullfrac h0 h1 h2
    · exact clampProb_mem _
  refine ⟨?_, hov, ?_⟩
  · have hdefO : (0 : ℚ) ≤ DEFAULT_OVERLAP_SEL ∧ DEFAULT_OVERLAP_SEL ≤ 1 := by
      norm_num [DEFAULT_OVERLAP_SEL]
    have hdefI : (0 : ℚ) ≤ DEFAULT_INCLUSION_SEL ∧ DEFAULT_INCLUSION_SEL ≤ 1 := by
      norm_num [DEFAULT_INCLUSION_SEL]
    have hratio := mcvRatio_mem mcvMatch mcvTotal nullfrac h0 h1 h2
    unfold inetinclusionsel
    generalize inet_hist_inclusion_selectivity hist q nd oprOrder = hs
    dsimp only
    split_ifs
    · exact hdefO
    · exact hdefI
    · exact hdefO
    · exact hdefI
    · norm_num
    · exact hdefO
    · exact hdefI
    · exact hratio
    · exact hratio
    · exact hdefO
    · exact hdefI
    · exact clampProb_mem _
  · unfold network_adjacent_selectivity
    constructor <;> linarith [hov.1, hov.2]

/-- Witness for C9 on concrete inputs. -/
theorem selectivity_in_unit_range_witness :
    0 ≤ inetinclusionsel true true false true false 0 0 0 0 none
        cidr_10_0_0_8 0 ∧
      inetinclusionsel true true false true false 0 0 0 0 none
        cidr_10_0_0_8 0 ≤ 1 :=
  (selectivity_in_unit_range true true false true false 0 0 0 0 none
    cidr_10_0_0_8 cidr_10_0_0_8 0 (by norm_num) (by norm_num) (by norm_num)
    (by norm_num)).1

/-! ## Inner-node pruning soundness: box quad tree -/

theorem udLe_trans_fin {u : UD} {x y : ℚ} (h : udLe u (.fin x) = true)
    (hxy : x ≤ y) : udLe u (.fin y) = true := by
  cases u <;> simp [udLe] at h ⊢ <;> linarith

theorem udLe_fin_trans {u : UD} {x y : ℚ} (h : udLe (.fin x) u = true)
    (hyx : y ≤ x) : udLe (.fin y) u = true := by
  cases u <;> simp [udLe] at h ⊢ <;> linarith

theorem udLt_of_udLe_of_lt {u : UD} {x y : ℚ} (h : udLe u (.fin x) = true)
    (hxy : x < y) : udLt u (.fin y) = true := by
  cases u <;> simp [udLe, udLt] at h ⊢ <;> linarith

theorem udLt_fin_of_udLe_of_lt {u : UD} {x y : ℚ}
    (h : udLe (.fin x) u = true) (hyx : y < x) :
    udLt (.fin y) u = true := by
  cases u <;> simp [udLe, udLt] at h ⊢ <;> linarith

/-- A leaf box satisfying the exact scalar operator forces the inner check
of any traversal-value region that contains the box. -/
theorem boxInner_sound (s : BoxStrategy) (B q : BoxT) (rb : RectBox)
    (hv : validBox B = true) (hin : inRectBox B rb = true)
    (hleaf : boxLeafCheck s B q = true) :
    boxInnerCheck s q rb = true := by
  unfold inRectBox at hin
  simp only [Bool.and_eq_true] at hin
  obtain ⟨⟨⟨⟨⟨⟨⟨hx1, hx2⟩, hx3⟩, hx4⟩, hy1⟩, hy2⟩, hy3⟩, hy4⟩ := hin
  unfold validBox at hv
  simp only [decide_eq_true_eq, Bool.and_eq_true] at hv
  obtain ⟨hvx, hvy⟩ := hv
  cases s
  case overlap =>
    unfold boxLeafCheck box_overlap at hleaf
    simp only [decide_eq_true_eq] at hleaf
    obtain ⟨h1, h2, h3, h4⟩ := hleaf
    unfold boxInnerCheck intersect4D intersect2D boxToRangeBox
    simp only [Bool.and_eq_true]
    exact ⟨⟨udLe_fin_trans hx4 h1, udLe_trans_fin hx1 h2⟩,
      udLe_fin_trans hy4 h3, udLe_trans_fin hy1 h4⟩
  case contains =>
    unfold boxLeafCheck box_contain at hleaf
    simp only [decide_eq_true_eq] at hleaf
    obtain ⟨h1, h2, h3, h4⟩ := hleaf
    unfold boxInnerCheck contain4D contain2D boxToRangeBox
    simp only [Bool.and_eq_true]
    exact ⟨⟨udLe_fin_trans hx4 h1, udLe_trans_fin hx1 h2⟩,
      udLe_fin_trans hy4 h3, udLe_trans_fin hy1 h4⟩
  case containedBy =>
    unfold boxLeafCheck box_contained box_contain at hleaf
    simp only [decide_eq_true_eq] at hleaf
    obtain ⟨h1, h2, h3, h4⟩ := hleaf
    unfold boxInnerCheck contained4D contained2D boxToRangeBox
    simp only [Bool.and_eq_true]
    exact ⟨⟨⟨⟨udLe_trans_fin hx1 (le_trans hvx h1),
      udLe_fin_trans hx2 h2⟩,
      udLe_trans_fin hx3 h1⟩,
      udLe_fin_trans hx4 (le_trans h2 hvx)⟩,
      ⟨⟨udLe_trans_fin hy1 (le_trans hvy h3),
      udLe_fin_trans hy2 h4⟩,
      udLe_trans_fin hy3 h3⟩,
      udLe_fin_trans hy4 (le_trans h4 hvy)⟩
  case left =>
    unfold boxLeafCheck box_left at hleaf
    simp only [decide_eq_true_eq] at hleaf
    unfold boxInnerCheck left4D isLower boxToRangeBox
    simp only [Bool.and_eq_true]
    exact ⟨udLt_of_udLe_of_lt hx1 (lt_of_le_of_lt hvx hleaf),
      udLt_of_udLe_of_lt hx3 hleaf⟩
  case right =>
    unfold boxLeafCheck box_right at hleaf
    simp only [decide_eq_true_eq] at hleaf
    unfold boxInnerCheck right4D isHigher boxToRangeBox
    simp only [Bool.and_eq_true]
    exact ⟨udLt_fin_of_udLe_of_lt hx2 hleaf,
      udLt_fin_of_udLe_of_lt hx4 (lt_of_lt_of_le hleaf hvx)⟩
  case below =>
    unfold boxLeafCheck box_below at hleaf
    simp only [decide_eq_true_eq] at hleaf
    unfold boxInnerCheck below4D isLower boxToRangeBox
    simp only [Bool.and_eq_true]
    exact ⟨udLt_of_udLe_of_lt hy1 (lt_of_le_of_lt hvy hleaf),
      udLt_of_udLe_of_lt hy3 hleaf⟩
  case above =>
    unfold boxLeafCheck box_above at hleaf
    simp only [decide_eq_true_eq] at hleaf
    unfold boxInnerCheck above4D isHigher boxToRangeBox
    simp only [Bool.and_eq_true]
    exact ⟨udLt_fin_of_udLe_of_lt hy2 hleaf,
      udLt_fin_of_udLe_of_lt hy4 (lt_of_lt_of_le hleaf hvy)⟩

/-! ## Inner-node pruning soundness: network prefix tree -/

theorem nodeNumber_lt4 (L : Inet) (k : Nat) :
    inet_spg_node_number L k < 4 := by
  unfold inet_spg_node_number
  split_ifs <;> norm_num

theorem nodeNumber_ge2 {L : Inet} {k : Nat} (h : k < L.bits) :
    2 ≤ inet_spg_node_number L k := by
  unfold inet_spg_node_number
  rw [if_pos h]
  split_ifs <;> norm_num

theorem nodeNumber_lt2 {L : Inet} {k : Nat} (h : ¬k < L.bits) :
    inet_spg_node_number L k < 2 := by
  unfold inet_spg_node_number
  rw [if_neg h]
  split_ifs <;> norm_num

theorem nodeNumber_eq3 {L : Inet} {k : Nat} (h1 : k < ip_maxbits L)
    (h2 : L.addr k = true) (h3 : k < L.bits) :
    inet_spg_node_number L k = 3 := by
  unfold inet_spg_node_number
  rw [if_pos ⟨h1, h2⟩, if_pos h3]

theorem nodeNumber_eq2 {L : Inet} {k : Nat} (h2 : L.addr k = false)
    (h3 : k < L.bits) : inet_spg_node_number L k = 2 := by
  unfold inet_spg_node_number
  rw [if_neg (by simp [h2]), if_pos h3]

theorem nodeNumber_eq1 {L : Inet} {k : Nat} (h1 : k < ip_maxbits L)
    (h2 : L.addr k = true) (h3 : ¬k < L.bits) :
    inet_spg_node_number L k = 1 := by
  unfold inet_spg_node_number
  rw [if_pos ⟨h1, h2⟩, if_neg h3]

theorem nodeNumber_eq0 {L : Inet} {k : Nat} (h2 : L.addr k = false)
    (h3 : ¬k < L.bits) : inet_spg_node_number L k = 0 := by
  unfold inet_spg_node_number
  rw [if_neg (by simp [h2]), if_neg h3]

theorem testBit15 {n : Nat} (h : n < 4) : Nat.testBit 15 n = true := by
  interval_cases n <;> decide

theorem testBit12 {n : Nat} (h2 : 2 ≤ n) (h4 : n < 4) :
    Nat.testBit 12 n = true := by
  interval_cases n <;> decide

theorem testBit3 {n : Nat} (h : n < 2) : Nat.testBit 3 n = true := by
  interval_cases n <;> decide

/-- Inner soundness for the strict-subnet strategy at a same-family node. -/
theorem innerSound_sub (P L a : Inet) (wfL : inetWF L)
    (hkm : P.bits ≤ L.bits)
    (hagree : ∀ i < P.bits, L.addr i = P.addr i)
    (hfaP : a.family = P.family)
    (hba : a.bits < L.bits)
    (ho' : bitncmp L.addr a.addr (min L.bits a.bits) = 0) :
    (inetStepKey P false .sub a 15).testBit (inet_spg_node_number L P.bits) =
      true := by
  have ho : bitncmp P.addr a.addr (min P.bits a.bits) = 0 := by
    rw [← bitncmp_congr hagree (Nat.min_le_left _ _)]
    exact bitncmp_zero_mono (by omega) ho'
  unfold inetStepKey
  rw [if_neg (not_not_intro hfaP)]
  dsimp only
  by_cases hk : P.bits ≤ a.bits
  · have hc1 : inetCheck1 P.bits a .sub 15 = 12 := by
      unfold inetCheck1
      dsimp only
      rw [if_pos hk]
      try decide
    rw [hc1, if_neg (by norm_num), if_neg (not_not_intro ho)]
    by_cases hk2 : P.bits < a.bits
    · have hLa : L.addr P.bits = a.addr P.bits :=
        bitncmp_agree_of_eq_zero ho' (by omega)
      cases hna : a.addr P.bits with
      | true =>
        have hc3 : inetCheck3 P.bits a .sub 12 = 8 := by
          unfold inetCheck3
          dsimp only
          rw [if_pos ⟨by decide, hk2⟩, hna]
          try decide
        rw [hc3, if_neg (by norm_num), if_pos (by decide)]
        rw [nodeNumber_eq3 (by unfold inetWF at wfL; omega)
          (by rw [hLa, hna]) (by omega)]
        decide
      | false =>
        have hc3 : inetCheck3 P.bits a .sub 12 = 4 := by
          unfold inetCheck3
          dsimp only
          rw [if_pos ⟨by decide, hk2⟩, hna]
          try decide
        rw [hc3, if_neg (by norm_num), if_pos (by decide)]
        rw [nodeNumber_eq2 (by rw [hLa, hna]) (by omega)]
        decide
    · have hc3 : inetCheck3 P.bits a .sub 12 = 12 := by
        unfold inetCheck3
        dsimp only
        rw [if_neg (fun hcon => hk2 hcon.2)]
      rw [hc3, if_neg (by norm_num), if_pos (by decide)]
      exact testBit12 (nodeNumber_ge2 (by omega)) (nodeNumber_lt4 L P.bits)
  · have hc1 : inetCheck1 P.bits a .sub 15 = 15 := by
      unfold inetCheck1
      dsimp only
      rw [if_neg hk]
    rw [hc1, if_neg (by norm_num), if_neg (not_not_intro ho)]
    have hc3 : inetCheck3 P.bits a .sub 15 = 15 := by
      unfold inetCheck3
      dsimp only
      rw [if_neg (fun hcon => hk (le_of_lt hcon.2))]
    rw [hc3, if_neg (by norm_num), if_pos (by decide)]
    exact testBit15 (nodeNumber_lt4 L P.bits)

theorem testBit7 {n : Nat} (h : n < 3) : Nat.testBit 7 n = true := by
  interval_cases n <;> decide

theorem testBit11 {n : Nat} (h : n < 4) (hne : n ≠ 2) :
    Nat.testBit 11 n = true := by
  interval_cases n <;> first | decide | omega

theorem testBit14 {n : Nat} (h : n < 4) (hne : n ≠ 0) :
    Nat.testBit 14 n = true := by
  interval_cases n <;> first | decide | omega

/-- Inner soundness for the subnet-or-equal strategy at a same-family
node. -/
theorem innerSound_subEq (P L a : Inet) (wfL : inetWF L)
    (hkm : P.bits ≤ L.bits)
    (hagree : ∀ i < P.bits, L.addr i = P.addr i)
    (hfaP : a.family = P.family)
    (hba : a.bits ≤ L.bits)
    (ho' : bitncmp L.addr a.addr (min L.bits a.bits) = 0) :
    (inetStepKey P false .subEq a 15).testBit (inet_spg_node_number L P.bits) =
      true := by
  have ho : bitncmp P.addr a.addr (min P.bits a.bits) = 0 := by
    rw [← bitncmp_congr hagree (Nat.min_le_left _ _)]
    exact bitncmp_zero_mono (by omega) ho'
  unfold inetStepKey
  rw [if_neg (not_not_intro hfaP)]
  dsimp only
  by_cases hk : P.bits < a.bits
  · have hc1 : inetCheck1 P.bits a .subEq 15 = 12 := by
      unfold inetCheck1
      dsimp only
      rw [if_pos hk]
      try decide
    rw [hc1, if_neg (by norm_num), if_neg (not_not_intro ho)]
    have hLa : L.addr P.bits = a.addr P.bits :=
      bitncmp_agree_of_eq_zero ho' (by omega)
    cases hna : a.addr P.bits with
    | true =>
      have hc3 : inetCheck3 P.bits a .subEq 12 = 8 := by
        unfold inetCheck3
        dsimp only
        rw [if_pos ⟨by decide, hk⟩, hna]
        try decide
      rw [hc3, if_neg (by norm_num), if_pos (by decide)]
      rw [nodeNumber_eq3 (by unfold inetWF at wfL; omega)
        (by rw [hLa, hna]) (by omega)]
      decide
    | false =>
      have hc3 : inetCheck3 P.bits a .subEq 12 = 4 := by
        unfold inetCheck3
        dsimp only
        rw [if_pos ⟨by decide, hk⟩, hna]
        try decide
      rw [hc3, if_neg (by norm_num), if_pos (by decide)]
      rw [nodeNumber_eq2 (by rw [hLa, hna]) (by omega)]
      decide
  · have hc1 : inetCheck1 P.bits a .subEq 15 = 15 := by
      unfold inetCheck1
      dsimp only
      rw [if_neg hk]
    rw [hc1, if_neg (by norm_num), if_neg (not_not_intro ho)]
    have hc3 : inetCheck3 P.bits a .subEq 15 = 15 := by
      unfold inetCheck3
      dsimp only
      rw [if_neg (fun hcon => hk hcon.2)]
    rw [hc3, if_neg (by norm_num), if_pos (by decide)]
    exact testBit15 (nodeNumber_lt4 L P.bits)

/-- Inner soundness for the overlap strategy at a same-family node. -/
theorem innerSound_overlaps (P L a : Inet) (wfL : inetWF L)
    (hkm : P.bits ≤ L.bits)
    (hagree : ∀ i < P.bits, L.addr i = P.addr i)
    (hfaP : a.family = P.family)
    (ho' : bitncmp L.addr a.addr (min L.bits a.bits) = 0) :
    (inetStepKey P false .overlaps a 15).testBit
      (inet_spg_node_number L P.bits) = true := by
  have ho : bitncmp P.addr a.addr (min P.bits a.bits) = 0 := by
    rw [← bitncmp_congr hagree (Nat.min_le_left _ _)]
    exact bitncmp_zero_mono (by omega) ho'
  unfold inetStepKey
  rw [if_neg (not_not_intro hfaP)]
  dsimp only
  have hc1 : inetCheck1 P.bits a .overlaps 15 = 15 := rfl
  rw [hc1, if_neg (by norm_num), if_neg (not_not_intro ho)]
  by_cases hk : P.bits < a.bits
  · by_cases hm : P.bits < L.bits
    · have hLa : L.addr P.bits = a.addr P.bits :=
        bitncmp_agree_of_eq_zero ho' (by omega)
      cases hna : a.addr P.bits with
      | true =>
        have hc3 : inetCheck3 P.bits a .overlaps 15 = 11 := by
          unfold inetCheck3
          dsimp only
          rw [if_pos ⟨by decide, hk⟩, hna]
          try decide
        rw [hc3, if_neg (by norm_num), if_pos (by decide)]
        rw [nodeNumber_eq3 (by unfold inetWF at wfL; omega)
          (by rw [hLa, hna]) hm]
        decide
      | false =>
        have hc3 : inetCheck3 P.bits a .overlaps 15 = 7 := by
          unfold inetCheck3
          dsimp only
          rw [if_pos ⟨by decide, hk⟩, hna]
          try decide
        rw [hc3, if_neg (by norm_num), if_pos (by decide)]
        rw [nodeNumber_eq2 (by rw [hLa, hna]) hm]
        decide
    · cases hna : a.addr P.bits with
      | true =>
        have hc3 : inetCheck3 P.bits a .overlaps 15 = 11 := by
          unfold inetCheck3
          dsimp only
          rw [if_pos ⟨by decide, hk⟩, hna]
          try decide
        rw [hc3, if_neg (by norm_num), if_pos (by decide)]
        exact testBit11 (nodeNumber_lt4 L P.bits) (by have := nodeNumber_lt2 hm; omega)
      | false =>
        have hc3 : inetCheck3 P.bits a .overlaps 15 = 7 := by
          unfold inetCheck3
          dsimp only
          rw [if_pos ⟨by decide, hk⟩, hna]
          try decide
        rw [hc3, if_neg (by norm_num), if_pos (by decide)]
        exact testBit7 (by have := nodeNumber_lt2 hm; omega)
  · have hc3 : inetCheck3 P.bits a .overlaps 15 = 15 := by
      unfold inetCheck3
      dsimp only
      rw [if_neg (fun hcon => hk hcon.2)]
    rw [hc3, if_neg (by norm_num), if_pos (by decide)]
    exact testBit15 (nodeNumber_lt4 L P.bits)

/-- Inner soundness for the strict-supernet strategy at a same-family
node. -/
theorem innerSound_superStrict (P L a : Inet) (wfL : inetWF L)
    (hkm : P.bits ≤ L.bits)
    (hagree : ∀ i < P.bits, L.addr i = P.addr i)
    (hfaP : a.family = P.family)
    (hba : L.bits < a.bits)
    (ho' : bitncmp L.addr a.addr (min L.bits a.bits) = 0) :
    (inetStepKey P false .superStrict a 15).testBit
      (inet_spg_node_number L P.bits) = true := by
  have ho : bitncmp P.addr a.addr (min P.bits a.bits) = 0 := by
    rw [← bitncmp_congr hagree (Nat.min_le_left _ _)]
    exact bitncmp_zero_mono (by omega) ho'
  unfold inetStepKey
  rw [if_neg (not_not_intro hfaP)]
  dsimp only
  by_cases hk1 : P.bits + 1 = a.bits
  · have hc1 : inetCheck1 P.bits a .superStrict 15 = 3 := by
      unfold inetCheck1
      dsimp only
      rw [if_pos hk1]
      try decide
    rw [hc1, if_neg (by norm_num), if_neg (not_not_intro ho)]
    have hc3 : inetCheck3 P.bits a .superStrict 3 = 3 := by
      unfold inetCheck3
      dsimp only
      rw [if_neg (fun hcon => hcon.1 (by decide))]
    rw [hc3, if_neg (by norm_num), if_pos (by decide)]
    exact testBit3 (nodeNumber_lt2 (by omega))
  · have hc1 : inetCheck1 P.bits a .superStrict 15 = 15 := by
      unfold inetCheck1
      dsimp only
      rw [if_neg hk1, if_neg (by omega)]
    rw [hc1, if_neg (by norm_num), if_neg (not_not_intro ho)]
    by_cases hm : P.bits < L.bits
    · have hLa : L.addr P.bits = a.addr P.bits :=
        bitncmp_agree_of_eq_zero ho' (by omega)
      cases hna : a.addr P.bits with
      | true =>
        have hc3 : inetCheck3 P.bits a .superStrict 15 = 11 := by
          unfold inetCheck3
          dsimp only
          rw [if_pos ⟨by decide, by omega⟩, hna]
          try decide
        rw [hc3, if_neg (by norm_num), if_pos (by decide)]
        rw [nodeNumber_eq3 (by unfold inetWF at wfL; omega)
          (by rw [hLa, hna]) hm]
        decide
      | false =>
        have hc3 : inetCheck3 P.bits a .superStrict 15 = 7 := by
          unfold inetCheck3
          dsimp only
          rw [if_pos ⟨by decide, by omega⟩, hna]
          try decide
        rw [hc3, if_neg (by norm_num), if_pos (by decide)]
        rw [nodeNumber_eq2 (by rw [hLa, hna]) hm]
        decide
    · cases hna : a.addr P.bits with
      | true =>
        have hc3 : inetCheck3 P.bits a .superStrict 15 = 11 := by
          unfold inetCheck3
          dsimp only
          rw [if_pos ⟨by decide, by omega⟩, hna]
          try decide
        rw [hc3, if_neg (by norm_num), if_pos (by decide)]
        exact testBit11 (nodeNumber_lt4 L P.bits)
          (by have := nodeNumber_lt2 hm; omega)
      | false =>
        have hc3 : inetCheck3 P.bits a .superStrict 15 = 7 := by
          unfold inetCheck3
          dsimp only
          rw [if_pos ⟨by decide, by omega⟩, hna]
          try decide
        rw [hc3, if_neg (by norm_num), if_pos (by decide)]
        exact testBit7 (by have := nodeNumber_lt2 hm; omega)

/-- Inner soundness for the supernet-or-equal strategy at a same-family
node. -/
theorem innerSound_superEq (P L a : Inet) (wfL : inetWF L)
    (hkm : P.bits ≤ L.bits)
    (hagree : ∀ i < P.bits, L.addr i = P.addr i)
    (hfaP : a.family = P.family)
    (hba : L.bits ≤ a.bits)
    (ho' : bitncmp L.addr a.addr (min L.bits a.bits) = 0) :
    (inetStepKey P false .superEq a 15).testBit
      (inet_spg_node_number L P.bits) = true := by
  have ho : bitncmp P.addr a.addr (min P.bits a.bits) = 0 := by
    rw [← bitncmp_congr hagree (Nat.min_le_left _ _)]
    exact bitncmp_zero_mono (by omega) ho'
  unfold inetStepKey
  rw [if_neg (not_not_intro hfaP)]
  dsimp only
  by_cases hk1 : P.bits = a.bits
  · have hc1 : inetCheck1 P.bits a .superEq 15 = 3 := by
      unfold inetCheck1
      dsimp only
      rw [if_pos hk1]
      try decide
    rw [hc1, if_neg (by norm_num), if_neg (not_not_intro ho)]
    have hc3 : inetCheck3 P.bits a .superEq 3 = 3 := by
      unfold inetCheck3
      dsimp only
      rw [if_neg (fun hcon => hcon.1 (by decide))]
    rw [hc3, if_neg (by norm_num), if_pos (by decide)]
    exact testBit3 (nodeNumber_lt2 (by omega))
  · have hc1 : inetCheck1 P.bits a .superEq 15 = 15 := by
      unfold inetCheck1
      dsimp only
      rw [if_neg hk1, if_neg (by omega)]
    rw [hc1, if_neg (by norm_num), if_neg (not_not_intro ho)]
    by_cases hm : P.bits < L.bits
    · have hLa : L.addr P.bits = a.addr P.bits :=
        bitncmp_agree_of_eq_zero ho' (by omega)
      cases hna : a.addr P.bits with
      | true =>
        have hc3 : inetCheck3 P.bits a .superEq 15 = 11 := by
          unfold inetCheck3
          dsimp only
          rw [if_pos ⟨by decide, by omega⟩, hna]
          try decide
        rw [hc3, if_neg (by norm_num), if_pos (by decide)]
        rw [nodeNumber_eq3 (by unfold inetWF at wfL; omega)
          (by rw [hLa, hna]) hm]
        decide
      | false =>
        have hc3 : inetCheck3 P.bits a .superEq 15 = 7 := by
          unfold inetCheck3
          dsimp only
          rw [if_pos ⟨by decide, by omega⟩, hna]
          try decide
        rw [hc3, if_neg (by norm_num), if_pos (by decide)]
        rw [nodeNumber_eq2 (by rw [hLa, hna]) hm]
        decide
    · cases hna : a.addr P.bits with
      | true =>
        have hc3 : inetCheck3 P.bits a .superEq 15 = 11 := by
          unfold inetCheck3
          dsimp only
          rw [if_pos ⟨by decide, by omega⟩, hna]
          try decide
        rw [hc3, if_neg (by norm_num), if_pos (by decide)]
        exact testBit11 (nodeNumber_lt4 L P.bits)
          (by have := nodeNumber_lt2 hm; omega)
      | false =>
        have hc3 : inetCheck3 P.bits a .superEq 15 = 7 := by
          unfold inetCheck3
          dsimp only
          rw [if_pos ⟨by decide, by omega⟩, hna]
          try decide
        rw [hc3, if_neg (by norm_num), if_pos (by decide)]
        exact testBit7 (by have := nodeNumber_lt2 hm; omega)

/-- Inner soundness for the not-equal strategy: the inner check never
prunes on it at a same-family node. -/
theorem innerSound_ne (P a : Inet) (n : Nat) (hn : n < 4)
    (hfaP : a.family = P.family) :
    (inetStepKey P false .ne a 15).testBit n = true := by
  unfold inetStepKey
  rw [if_neg (not_not_intro hfaP)]
  dsimp only
  have hc1 : inetCheck1 P.bits a .ne 15 = 15 := rfl
  have hc3 : inetCheck3 P.bits a .ne 15 = 15 := by
    unfold inetCheck3
    dsimp only
    split <;> rfl
  have hc4 : inetCheck4 P.bits a .ne 15 = 15 := rfl
  have hc5 : inetCheck5 false P.bits a .ne 15 = 15 := by
    unfold inetCheck5
    dsimp only
    split <;> rfl
  rw [hc1, if_neg (by norm_num)]
  by_cases ho : bitncmp P.addr a.addr (min P.bits a.bits) ≠ 0
  · rw [if_pos ho]
    have hc2 : inetCheck2 (bitncmp P.addr a.addr (min P.bits a.bits)) .ne 15 =
        15 := rfl
    rw [hc2]
    exact testBit15 hn
  · rw [if_neg ho, hc3, if_neg (by norm_num), if_neg (by decide), hc4,
      if_neg (by norm_num)]
    by_cases hkab : P.bits ≠ a.bits
    · rw [if_pos hkab]
      exact testBit15 hn
    · rw [if_neg hkab, hc5, if_neg (by norm_num), if_neg (by decide)]
      exact testBit15 hn

/-- Inner soundness for the equality strategy at a same-family node. -/
theorem innerSound_eq (P L a : Inet) (wfL : inetWF L) (wfa : inetWF a)
    (hkm : P.bits ≤ L.bits)
    (hagree : ∀ i < P.bits, L.addr i = P.addr i)
    (hfaL : a.family = L.family) (hfaP : a.family = P.family)
    (hm : L.bits = a.bits)
    (ho2 : bitncmp L.addr a.addr (ip_maxbits L) = 0) :
    (inetStepKey P false .eq a 15).testBit (inet_spg_node_number L P.bits) =
      true := by
  have hmaxeq : ip_maxbits a = ip_maxbits L := by
    unfold ip_maxbits
    rw [hfaL]
  have hagreeAll : ∀ i < ip_maxbits L, L.addr i = a.addr i :=
    bitncmp_eq_zero_iff.mp ho2
  have hwa : a.bits ≤ ip_maxbits a := wfa
  have hwL : L.bits ≤ ip_maxbits L := wfL
  have ho : bitncmp P.addr a.addr (min P.bits a.bits) = 0 := by
    rw [← bitncmp_congr hagree (Nat.min_le_left _ _)]
    exact bitncmp_zero_mono (by omega) ho2
  unfold inetStepKey
  rw [if_neg (not_not_intro hfaP)]
  dsimp only
  by_cases hk : P.bits < a.bits
  · have hc1 : inetCheck1 P.bits a .eq 15 = 12 := by
      unfold inetCheck1
      dsimp only
      rw [if_pos hk]
      try decide
    rw [hc1, if_neg (by norm_num), if_neg (not_not_intro ho)]
    have hkmax : P.bits < ip_maxbits L := by omega
    have hLa : L.addr P.bits = a.addr P.bits := hagreeAll _ hkmax
    cases hna : a.addr P.bits with
    | true =>
      have hc3 : inetCheck3 P.bits a .eq 12 = 8 := by
        unfold inetCheck3
        dsimp only
        rw [if_pos ⟨by decide, hk⟩, hna]
        try decide
      rw [hc3, if_neg (by norm_num), if_neg (by decide)]
      have hc4 : inetCheck4 P.bits a .eq 8 = 8 := rfl
      rw [hc4, if_neg (by norm_num), if_pos (by omega : P.bits ≠ a.bits)]
      rw [nodeNumber_eq3 hkmax (by rw [hLa, hna]) (by omega)]
      decide
    | false =>
      have hc3 : inetCheck3 P.bits a .eq 12 = 4 := by
        unfold inetCheck3
        dsimp only
        rw [if_pos ⟨by decide, hk⟩, hna]
        try decide
      rw [hc3, if_neg (by norm_num), if_neg (by decide)]
      have hc4 : inetCheck4 P.bits a .eq 4 = 4 := rfl
      rw [hc4, if_neg (by norm_num), if_pos (by omega : P.bits ≠ a.bits)]
      rw [nodeNumber_eq2 (by rw [hLa, hna]) (by omega)]
      decide
  · by_cases hk2 : P.bits = a.bits
    · have hc1 : inetCheck1 P.bits a .eq 15 = 3 := by
        unfold inetCheck1
        dsimp only
        rw [if_neg hk, if_pos hk2]
        try decide
      rw [hc1, if_neg (by norm_num), if_neg (not_not_intro ho)]
      have hc3 : inetCheck3 P.bits a .eq 3 = 3 := by
        unfold inetCheck3
        dsimp only
        rw [if_neg (fun hcon => hcon.1 (by decide))]
      rw [hc3, if_neg (by norm_num), if_neg (by decide)]
      have hc4 : inetCheck4 P.bits a .eq 3 = 3 := rfl
      rw [hc4, if_neg (by norm_num), if_neg (not_not_intro hk2)]
      by_cases hmb : P.bits < ip_maxbits a
      · have hkmax : P.bits < ip_maxbits L := by omega
        have hLa : L.addr P.bits = a.addr P.bits := hagreeAll _ hkmax
        cases hna : a.addr P.bits with
        | true =>
          have hc5 : inetCheck5 false P.bits a .eq 3 = 2 := by
            unfold inetCheck5
            dsimp only
            rw [if_pos ⟨by decide, by decide, hmb⟩, hna]
            try decide
          rw [hc5, if_neg (by norm_num), if_neg (by decide)]
          rw [nodeNumber_eq1 hkmax (by rw [hLa, hna]) (by omega)]
          decide
        | false =>
          have hc5 : inetCheck5 false P.bits a .eq 3 = 1 := by
            unfold inetCheck5
            dsimp only
            rw [if_pos ⟨by decide, by decide, hmb⟩, hna]
            try decide
          rw [hc5, if_neg (by norm_num), if_neg (by decide)]
          rw [nodeNumber_eq0 (by rw [hLa, hna]) (by omega)]
          decide
      · have hc5 : inetCheck5 false P.bits a .eq 3 = 3 := by
          unfold inetCheck5
          dsimp only
          rw [if_neg (fun hcon => hmb hcon.2.2)]
        rw [hc5, if_neg (by norm_num), if_neg (by decide)]
        exact testBit3 (nodeNumber_lt2 (by omega))
    · exfalso
      omega

/-- Inner soundness for the less-than strategy at a same-family node. -/
theorem innerSound_lt (P L a : Inet) (wfL : inetWF L) (wfa : inetWF a)
    (hkm : P.bits ≤ L.bits)
    (hagree : ∀ i < P.bits, L.addr i = P.addr i)
    (hfaL : a.family = L.family) (hfaP : a.family = P.family)
    (hlf : bitncmp L.addr a.addr (min L.bits a.bits) < 0 ∨
      (bitncmp L.addr a.addr (min L.bits a.bits) = 0 ∧
        (L.bits < a.bits ∨
          (L.bits = a.bits ∧ bitncmp L.addr a.addr (ip_maxbits L) < 0)))) :
    (inetStepKey P false .lt a 15).testBit (inet_spg_node_number L P.bits) =
      true := by
  have hmaxeq : ip_maxbits a = ip_maxbits L := by
    unfold ip_maxbits
    rw [hfaL]
  have hwa : a.bits ≤ ip_maxbits a := wfa
  have hwL : L.bits ≤ ip_maxbits L := wfL
  unfold inetStepKey
  rw [if_neg (not_not_intro hfaP)]
  dsimp only
  have hc1 : inetCheck1 P.bits a .lt 15 = 15 := rfl
  rw [hc1, if_neg (by norm_num)]
  have hoL : bitncmp P.addr a.addr (min P.bits a.bits) =
      bitncmp L.addr a.addr (min P.bits a.bits) :=
    (bitncmp_congr hagree (Nat.min_le_left _ _)).symm
  by_cases hoz : bitncmp P.addr a.addr (min P.bits a.bits) = 0
  · rw [if_neg (not_not_intro hoz)]
    have hoLz : bitncmp L.addr a.addr (min P.bits a.bits) = 0 := by
      rw [← hoL]
      exact hoz
    by_cases hk3 : P.bits < a.bits
    · cases hna : a.addr P.bits with
      | true =>
        have hc3 : inetCheck3 P.bits a .lt 15 = 15 := by
          unfold inetCheck3
          dsimp only
          rw [if_pos ⟨by decide, hk3⟩, hna]
          try decide
        rw [hc3, if_neg (by norm_num), if_neg (by decide)]
        have hc4 : inetCheck4 P.bits a .lt 15 = 15 := by
          unfold inetCheck4
          dsimp only
          rw [if_neg (by omega), if_neg (by omega)]
        rw [hc4, if_neg (by norm_num), if_pos (by omega : P.bits ≠ a.bits)]
        exact testBit15 (nodeNumber_lt4 L P.bits)
      | false =>
        have hc3 : inetCheck3 P.bits a .lt 15 = 7 := by
          unfold inetCheck3
          dsimp only
          rw [if_pos ⟨by decide, hk3⟩, hna]
          try decide
        rw [hc3, if_neg (by norm_num), if_neg (by decide)]
        have hc4 : inetCheck4 P.bits a .lt 7 = 7 := by
          unfold inetCheck4
          dsimp only
          rw [if_neg (by omega), if_neg (by omega)]
        rw [hc4, if_neg (by norm_num), if_pos (by omega : P.bits ≠ a.bits)]
        by_cases hkm2 : P.bits < L.bits
        · have hag : ∀ i < P.bits, L.addr i = a.addr i := by
            intro i hi
            exact bitncmp_agree_of_eq_zero hoLz (by omega)
          have hLk : L.addr P.bits = false := by
            by_contra hcon
            have hLk1 : L.addr P.bits = true := by
              revert hcon
              cases L.addr P.bits <;> simp
            have hpos : bitncmp L.addr a.addr (min L.bits a.bits) = 1 :=
              bitncmp_pos_of_first_diff hag (by omega) hLk1 hna
            rcases hlf with hnegl | ⟨hz, _⟩ <;> omega
          rw [nodeNumber_eq2 hLk hkm2]
          decide
        · exact testBit7 (by have := nodeNumber_lt2 hkm2; omega)
    · have hc3 : inetCheck3 P.bits a .lt 15 = 15 := by
        unfold inetCheck3
        dsimp only
        rw [if_neg (fun hcon => hk3 hcon.2)]
      rw [hc3, if_neg (by norm_num), if_neg (by decide)]
      by_cases hk4 : P.bits = a.bits
      · have hc4 : inetCheck4 P.bits a .lt 15 = 3 := by
          unfold inetCheck4
          dsimp only
          rw [if_pos hk4]
          try decide
        rw [hc4, if_neg (by norm_num), if_neg (not_not_intro hk4)]
        have ht' : min L.bits a.bits = min P.bits a.bits := by omega
        have ho'' : bitncmp L.addr a.addr (min L.bits a.bits) = 0 := by
          rw [ht']
          exact hoLz
        rcases hlf with hnegl | ⟨hz, hcase⟩
        · omega
        rcases hcase with hblt | ⟨hmk, ho2⟩
        · omega
        by_cases hmb : P.bits < ip_maxbits a
        · cases hna : a.addr P.bits with
          | true =>
            have hc5 : inetCheck5 false P.bits a .lt 3 = 3 := by
              unfold inetCheck5
              dsimp only
              rw [if_pos ⟨by decide, by decide, hmb⟩, hna]
              try decide
            rw [hc5, if_neg (by norm_num), if_neg (by decide)]
            exact testBit3 (nodeNumber_lt2 (by omega))
          | false =>
            have hc5 : inetCheck5 false P.bits a .lt 3 = 1 := by
              unfold inetCheck5
              dsimp only
              rw [if_pos ⟨by decide, by decide, hmb⟩, hna]
              try decide
            rw [hc5, if_neg (by norm_num), if_neg (by decide)]
            have hag : ∀ i < P.bits, L.addr i = a.addr i := by
              intro i hi
              exact bitncmp_agree_of_eq_zero hoLz (by omega)
            have hLk : L.addr P.bits = false := by
              by_contra hcon
              have hLk1 : L.addr P.bits = true := by
                revert hcon
                cases L.addr P.bits <;> simp
              have hpos : bitncmp L.addr a.addr (ip_maxbits L) = 1 :=
                bitncmp_pos_of_first_diff hag (by omega) hLk1 hna
              omega
            rw [nodeNumber_eq0 hLk (by omega)]
            decide
        · have hc5 : inetCheck5 false P.bits a .lt 3 = 3 := by
            unfold inetCheck5
            dsimp only
            rw [if_neg (fun hcon => hmb hcon.2.2)]
          rw [hc5, if_neg (by norm_num), if_neg (by decide)]
          exact testBit3 (nodeNumber_lt2 (by omega))
      · exfalso
        have hab : min P.bits a.bits = a.bits := by omega
        have ht' : min L.bits a.bits = a.bits := by omega
        have ho'' : bitncmp L.addr a.addr (min L.bits a.bits) = 0 := by
          rw [ht', ← hab]
          exact hoLz
        rcases hlf with hnegl | ⟨hz, hcase⟩
        · omega
        · rcases hcase with hblt | ⟨hmk, _⟩ <;> omega
  · rw [if_pos hoz]
    have hoL' : bitncmp L.addr a.addr (min P.bits a.bits) ≠ 0 := by
      rw [← hoL]
      exact hoz
    have hext : bitncmp L.addr a.addr (min L.bits a.bits) =
        bitncmp L.addr a.addr (min P.bits a.bits) :=
      bitncmp_ne_zero_ext (by omega) hoL'
    rcases hlf with hneg | ⟨hzero, _⟩
    · have hneg2 : bitncmp P.addr a.addr (min P.bits a.bits) < 0 := by
        rw [hoL]
        omega
      unfold inetCheck2
      dsimp only
      rw [if_neg (by omega)]
      exact testBit15 (nodeNumber_lt4 L P.bits)
    · exfalso
      rw [hzero] at hext
      exact hoL' hext.symm

/-- Inner soundness for the less-or-equal strategy at a same-family
node. -/
theorem innerSound_le (P L a : Inet) (wfL : inetWF L) (wfa : inetWF a)
    (hkm : P.bits ≤ L.bits)
    (hagree : ∀ i < P.bits, L.addr i = P.addr i)
    (hfaL : a.family = L.family) (hfaP : a.family = P.family)
    (hlf : bitncmp L.addr a.addr (min L.bits a.bits) < 0 ∨
      (bitncmp L.addr a.addr (min L.bits a.bits) = 0 ∧
        (L.bits < a.bits ∨
          (L.bits = a.bits ∧ bitncmp L.addr a.addr (ip_maxbits L) ≤ 0)))) :
    (inetStepKey P false .le a 15).testBit (inet_spg_node_number L P.bits) =
      true := by
  have hmaxeq : ip_maxbits a = ip_maxbits L := by
    unfold ip_maxbits
    rw [hfaL]
  have hwa : a.bits ≤ ip_maxbits a := wfa
  have hwL : L.bits ≤ ip_maxbits L := wfL
  unfold inetStepKey
  rw [if_neg (not_not_intro hfaP)]
  dsimp only
  have hc1 : inetCheck1 P.bits a .le 15 = 15 := rfl
  rw [hc1, if_neg (by norm_num)]
  have hoL : bitncmp P.addr a.addr (min P.bits a.bits) =
      bitncmp L.addr a.addr (min P.bits a.bits) :=
    (bitncmp_congr hagree (Nat.min_le_left _ _)).symm
  by_cases hoz : bitncmp P.addr a.addr (min P.bits a.bits) = 0
  · rw [if_neg (not_not_intro hoz)]
    have hoLz : bitncmp L.addr a.addr (min P.bits a.bits) = 0 := by
      rw [← hoL]
      exact hoz
    by_cases hk3 : P.bits < a.bits
    · cases hna : a.addr P.bits with
      | true =>
        have hc3 : inetCheck3 P.bits a .le 15 = 15 := by
          unfold inetCheck3
          dsimp only
          rw [if_pos ⟨by decide, hk3⟩, hna]
          try decide
        rw [hc3, if_neg (by norm_num), if_neg (by decide)]
        have hc4 : inetCheck4 P.bits a .le 15 = 15 := by
          unfold inetCheck4
          dsimp only
          rw [if_neg (by omega), if_neg (by omega)]
        rw [hc4, if_neg (by norm_num), if_pos (by omega : P.bits ≠ a.bits)]
        exact testBit15 (nodeNumber_lt4 L P.bits)
      | false =>
        have hc3 : inetCheck3 P.bits a .le 15 = 7 := by
          unfold inetCheck3
          dsimp only
          rw [if_pos ⟨by decide, hk3⟩, hna]
          try decide
        rw [hc3, if_neg (by norm_num), if_neg (by decide)]
        have hc4 : inetCheck4 P.bits a .le 7 = 7 := by
          unfold inetCheck4
          dsimp only
          rw [if_neg (by omega), if_neg (by omega)]
        rw [hc4, if_neg (by norm_num), if_pos (by omega : P.bits ≠ a.bits)]
        by_cases hkm2 : P.bits < L.bits
        · have hag : ∀ i < P.bits, L.addr i = a.addr i := by
            intro i hi
            exact bitncmp_agree_of_eq_zero hoLz (by omega)
          have hLk : L.addr P.bits = false := by
            by_contra hcon
            have hLk1 : L.addr P.bits = true := by
              revert hcon
              cases L.addr P.bits <;> simp
            have hpos : bitncmp L.addr a.addr (min L.bits a.bits) = 1 :=
              bitncmp_pos_of_first_diff hag (by omega) hLk1 hna
            rcases hlf with hnegl | ⟨hz, _⟩ <;> omega
          rw [nodeNumber_eq2 hLk hkm2]
          decide
        · exact testBit7 (by have := nodeNumber_lt2 hkm2; omega)
    · have hc3 : inetCheck3 P.bits a .le 15 = 15 := by
        unfold inetCheck3
        dsimp only
        rw [if_neg (fun hcon => hk3 hcon.2)]
      rw [hc3, if_neg (by norm_num), if_neg (by decide)]
      by_cases hk4 : P.bits = a.bits
      · have hc4 : inetCheck4 P.bits a .le 15 = 3 := by
          unfold inetCheck4
          dsimp only
          rw [if_pos hk4]
          try decide
        rw [hc4, if_neg (by norm_num), if_neg (not_not_intro hk4)]
        have ht' : min L.bits a.bits = min P.bits a.bits := by omega
        have ho'' : bitncmp L.addr a.addr (min L.bits a.bits) = 0 := by
          rw [ht']
          exact hoLz
        rcases hlf with hnegl | ⟨hz, hcase⟩
        · omega
        rcases hcase with hblt | ⟨hmk, ho2⟩
        · omega
        by_cases hmb : P.bits < ip_maxbits a
        · cases hna : a.addr P.bits with
          | true =>
            have hc5 : inetCheck5 false P.bits a .le 3 = 3 := by
              unfold inetCheck5
              dsimp only
              rw [if_pos ⟨by decide, by decide, hmb⟩, hna]
              try decide
            rw [hc5, if_neg (by norm_num), if_neg (by decide)]
            exact testBit3 (nodeNumber_lt2 (by omega))
          | false =>
            have hc5 : inetCheck5 false P.bits a .le 3 = 1 := by
              unfold inetCheck5
              dsimp only
              rw [if_pos ⟨by decide, by decide, hmb⟩, hna]
              try decide
            rw [hc5, if_neg (by norm_num), if_neg (by decide)]
            have hag : ∀ i < P.bits, L.addr i = a.addr i := by
              intro i hi
              exact bitncmp_agree_of_eq_zero hoLz (by omega)
            have hLk : L.addr P.bits = false := by
              by_contra hcon
              have hLk1 : L.addr P.bits = true := by
                revert hcon
                cases L.addr P.bits <;> simp
              have hpos : bitncmp L.addr a.addr (ip_maxbits L) = 1 :=
                bitncmp_pos_of_first_diff hag (by omega) hLk1 hna
              omega
            rw [nodeNumber_eq0 hLk (by omega)]
            decide
        · have hc5 : inetCheck5 false P.bits a .le 3 = 3 := by
            unfold inetCheck5
            dsimp only
            rw [if_neg (fun hcon => hmb hcon.2.2)]
          rw [hc5, if_neg (by norm_num), if_neg (by decide)]
          exact testBit3 (nodeNumber_lt2 (by omega))
      · exfalso
        have hab : min P.bits a.bits = a.bits := by omega
        have ht' : min L.bits a.bits = a.bits := by omega
        have ho'' : bitncmp L.addr a.addr (min L.bits a.bits) = 0 := by
          rw [ht', ← hab]
          exact hoLz
        rcases hlf with hnegl | ⟨hz, hcase⟩
        · omega
        · rcases hcase with hblt | ⟨hmk, _⟩ <;> omega
  · rw [if_pos hoz]
    have hoL' : bitncmp L.addr a.addr (min P.bits a.bits) ≠ 0 := by
      rw [← hoL]
      exact hoz
    have hext : bitncmp L.addr a.addr (min L.bits a.bits) =
        bitncmp L.addr a.addr (min P.bits a.bits) :=
      bitncmp_ne_zero_ext (by omega) hoL'
    rcases hlf with hneg | ⟨hzero, _⟩
    · have hneg2 : bitncmp P.addr a.addr (min P.bits a.bits) < 0 := by
        rw [hoL]
        omega
      unfold inetCheck2
      dsimp only
      rw [if_neg (by omega)]
      exact testBit15 (nodeNumber_lt4 L P.bits)
    · exfalso
      rw [hzero] at hext
      exact hoL' hext.symm

/-- Inner soundness for the greater-than strategy at a same-family
node. -/
theorem innerSound_gt (P L a : Inet) (wfL : inetWF L) (wfa : inetWF a)
    (hkm : P.bits ≤ L.bits)
    (hagree : ∀ i < P.bits, L.addr i = P.addr i)
    (hfaL : a.family = L.family) (hfaP : a.family = P.family)
    (hlf : bitncmp L.addr a.addr (min L.bits a.bits) > 0 ∨
      (bitncmp L.addr a.addr (min L.bits a.bits) = 0 ∧
        (a.bits < L.bits ∨
          (L.bits = a.bits ∧ bitncmp L.addr a.addr (ip_maxbits L) > 0)))) :
    (inetStepKey P false .gt a 15).testBit (inet_spg_node_number L P.bits) =
      true := by
  have hmaxeq : ip_maxbits a = ip_maxbits L := by
    unfold ip_maxbits
    rw [hfaL]
  have hwa : a.bits ≤ ip_maxbits a := wfa
  have hwL : L.bits ≤ ip_maxbits L := wfL
  unfold inetStepKey
  rw [if_neg (not_not_intro hfaP)]
  dsimp only
  have hc1 : inetCheck1 P.bits a .gt 15 = 15 := rfl
  rw [hc1, if_neg (by norm_num)]
  have hoL : bitncmp P.addr a.addr (min P.bits a.bits) =
      bitncmp L.addr a.addr (min P.bits a.bits) :=
    (bitncmp_congr hagree (Nat.min_le_left _ _)).symm
  by_cases hoz : bitncmp P.addr a.addr (min P.bits a.bits) = 0
  · rw [if_neg (not_not_intro hoz)]
    have hoLz : bitncmp L.addr a.addr (min P.bits a.bits) = 0 := by
      rw [← hoL]
      exact hoz
    by_cases hk3 : P.bits < a.bits
    · have hkm2 : P.bits < L.bits := by
        by_contra hcon
        have ht' : min L.bits a.bits = min P.bits a.bits := by omega
        have ho'' : bitncmp L.addr a.addr (min L.bits a.bits) = 0 := by
          rw [ht']
          exact hoLz
        rcases hlf with hp | ⟨hz, hcase⟩
        · omega
        · rcases hcase with h1 | ⟨h2, _⟩ <;> omega
      cases hna : a.addr P.bits with
      | true =>
        have hLk : L.addr P.bits = true := by
          by_contra hcon
          have hLk0 : L.addr P.bits = false := by
            revert hcon
            cases L.addr P.bits <;> simp
          have hag : ∀ i < P.bits, L.addr i = a.addr i := by
            intro i hi
            exact bitncmp_agree_of_eq_zero hoLz (by omega)
          have hneg : bitncmp L.addr a.addr (min L.bits a.bits) = -1 :=
            bitncmp_neg_of_first_diff hag (by omega) hLk0 hna
          rcases hlf with hp | ⟨hz, _⟩ <;> omega
        have hc3 : inetCheck3 P.bits a .gt 15 = 11 := by
          unfold inetCheck3
          dsimp only
          rw [if_pos ⟨by decide, hk3⟩, hna]
          try decide
        rw [hc3, if_neg (by norm_num), if_neg (by decide)]
        have hc4 : inetCheck4 P.bits a .gt 11 = 8 := by
          unfold inetCheck4
          dsimp only
          rw [if_pos hk3]
          try decide
        rw [hc4, if_neg (by norm_num), if_pos (by omega : P.bits ≠ a.bits)]
        rw [nodeNumber_eq3 (by omega) hLk hkm2]
        decide
      | false =>
        have hc3 : inetCheck3 P.bits a .gt 15 = 15 := by
          unfold inetCheck3
          dsimp only
          rw [if_pos ⟨by decide, hk3⟩, hna]
          try decide
        rw [hc3, if_neg (by norm_num), if_neg (by decide)]
        have hc4 : inetCheck4 P.bits a .gt 15 = 12 := by
          unfold inetCheck4
          dsimp only
          rw [if_pos hk3]
          try decide
        rw [hc4, if_neg (by norm_num), if_pos (by omega : P.bits ≠ a.bits)]
        exact testBit12 (nodeNumber_ge2 hkm2) (nodeNumber_lt4 L P.bits)
    · have hc3 : inetCheck3 P.bits a .gt 15 = 15 := by
        unfold inetCheck3
        dsimp only
        rw [if_neg (fun hcon => hk3 hcon.2)]
      rw [hc3, if_neg (by norm_num), if_neg (by decide)]
      have hc4 : inetCheck4 P.bits a .gt 15 = 15 := by
        unfold inetCheck4
        dsimp only
        rw [if_neg hk3]
      rw [hc4, if_neg (by norm_num)]
      by_cases hk5 : P.bits = a.bits
      · rw [if_neg (not_not_intro hk5)]
        by_cases hmb : P.bits < ip_maxbits a
        · cases hna : a.addr P.bits with
          | true =>
            have hc5 : inetCheck5 false P.bits a .gt 15 = 14 := by
              unfold inetCheck5
              dsimp only
              rw [if_pos ⟨by decide, by decide, hmb⟩, hna]
              try decide
            rw [hc5, if_neg (by norm_num), if_neg (by decide)]
            by_cases hkm2 : P.bits < L.bits
            · exact testBit14 (nodeNumber_lt4 L P.bits)
                (by have := nodeNumber_ge2 hkm2; omega)
            · cases hLb : L.addr P.bits with
              | true =>
                rw [nodeNumber_eq1 (by omega) hLb hkm2]
                decide
              | false =>
                exfalso
                have hag : ∀ i < P.bits, L.addr i = a.addr i := by
                  intro i hi
                  exact bitncmp_agree_of_eq_zero hoLz (by omega)
                have hneg : bitncmp L.addr a.addr (ip_maxbits L) = -1 :=
                  bitncmp_neg_of_first_diff hag (by omega) hLb hna
                have ht' : min L.bits a.bits = min P.bits a.bits := by
                  omega
                have ho'' : bitncmp L.addr a.addr (min L.bits a.bits) = 0 := by
                  rw [ht']
                  exact hoLz
                rcases hlf with hp | ⟨hz, hcase⟩
                · omega
                · rcases hcase with h1 | ⟨h2, h3⟩ <;> omega
          | false =>
            have hc5 : inetCheck5 false P.bits a .gt 15 = 15 := by
              unfold inetCheck5
              dsimp only
              rw [if_pos ⟨by decide, by decide, hmb⟩, hna]
              try decide
            rw [hc5, if_neg (by norm_num), if_neg (by decide)]
            exact testBit15 (nodeNumber_lt4 L P.bits)
        · have hc5 : inetCheck5 false P.bits a .gt 15 = 15 := by
            unfold inetCheck5
            dsimp only
            rw [if_neg (fun hcon => hmb hcon.2.2)]
          rw [hc5, if_neg (by norm_num), if_neg (by decide)]
          exact testBit15 (nodeNumber_lt4 L P.bits)
      · rw [if_pos hk5]
        exact testBit15 (nodeNumber_lt4 L P.bits)
  · rw [if_pos hoz]
    have hoL' : bitncmp L.addr a.addr (min P.bits a.bits) ≠ 0 := by
      rw [← hoL]
      exact hoz
    have hext : bitncmp L.addr a.addr (min L.bits a.bits) =
        bitncmp L.addr a.addr (min P.bits a.bits) :=
      bitncmp_ne_zero_ext (by omega) hoL'
    rcases hlf with hpos | ⟨hzero, _⟩
    · have hpos2 : bitncmp P.addr a.addr (min P.bits a.bits) > 0 := by
        rw [hoL]
        omega
      unfold inetCheck2
      dsimp only
      rw [if_neg (by omega)]
      exact testBit15 (nodeNumber_lt4 L P.bits)
    · exfalso
      rw [hzero] at hext
      exact hoL' hext.symm

/-- Inner soundness for the greater-or-equal strategy at a same-family
node. -/
theorem innerSound_ge (P L a : Inet) (wfL : inetWF L) (wfa : inetWF a)
    (hkm : P.bits ≤ L.bits)
    (hagree : ∀ i < P.bits, L.addr i = P.addr i)
    (hfaL : a.family = L.family) (hfaP : a.family = P.family)
    (hlf : bitncmp L.addr a.addr (min L.bits a.bits) > 0 ∨
      (bitncmp L.addr a.addr (min L.bits a.bits) = 0 ∧
        (a.bits < L.bits ∨
          (L.bits = a.bits ∧
            0 ≤ bitncmp L.addr a.addr (ip_maxbits L))))) :
    (inetStepKey P false .ge a 15).testBit (inet_spg_node_number L P.bits) =
      true := by
  have hmaxeq : ip_maxbits a = ip_maxbits L := by
    unfold ip_maxbits
    rw [hfaL]
  have hwa : a.bits ≤ ip_maxbits a := wfa
  have hwL : L.bits ≤ ip_maxbits L := wfL
  unfold inetStepKey
  rw [if_neg (not_not_intro hfaP)]
  dsimp only
  have hc1 : inetCheck1 P.bits a .ge 15 = 15 := rfl
  rw [hc1, if_neg (by norm_num)]
  have hoL : bitncmp P.addr a.addr (min P.bits a.bits) =
      bitncmp L.addr a.addr (min P.bits a.bits) :=
    (bitncmp_congr hagree (Nat.min_le_left _ _)).symm
  by_cases hoz : bitncmp P.addr a.addr (min P.bits a.bits) = 0
  · rw [if_neg (not_not_intro hoz)]
    have hoLz : bitncmp L.addr a.addr (min P.bits a.bits) = 0 := by
      rw [← hoL]
      exact hoz
    by_cases hk3 : P.bits < a.bits
    · have hkm2 : P.bits < L.bits := by
        by_contra hcon
        have ht' : min L.bits a.bits = min P.bits a.bits := by omega
        have ho'' : bitncmp L.addr a.addr (min L.bits a.bits) = 0 := by
          rw [ht']
          exact hoLz
        rcases hlf with hp | ⟨hz, hcase⟩
        · omega
        · rcases hcase with h1 | ⟨h2, _⟩ <;> omega
      cases hna : a.addr P.bits with
      | true =>
        have hLk : L.addr P.bits = true := by
          by_contra hcon
          have hLk0 : L.addr P.bits = false := by
            revert hcon
            cases L.addr P.bits <;> simp
          have hag : ∀ i < P.bits, L.addr i = a.addr i := by
            intro i hi
            exact bitncmp_agree_of_eq_zero hoLz (by omega)
          have hneg : bitncmp L.addr a.addr (min L.bits a.bits) = -1 :=
            bitncmp_neg_of_first_diff hag (by omega) hLk0 hna
          rcases hlf with hp | ⟨hz, _⟩ <;> omega
        have hc3 : inetCheck3 P.bits a .ge 15 = 11 := by
          unfold inetCheck3
          dsimp only
          rw [if_pos ⟨by decide, hk3⟩, hna]
          try decide
        rw [hc3, if_neg (by norm_num), if_neg (by decide)]
        have hc4 : inetCheck4 P.bits a .ge 11 = 8 := by
          unfold inetCheck4
          dsimp only
          rw [if_pos hk3]
          try decide
        rw [hc4, if_neg (by norm_num), if_pos (by omega : P.bits ≠ a.bits)]
        rw [nodeNumber_eq3 (by omega) hLk hkm2]
        decide
      | false =>
        have hc3 : inetCheck3 P.bits a .ge 15 = 15 := by
          unfold inetCheck3
          dsimp only
          rw [if_pos ⟨by decide, hk3⟩, hna]
          try decide
        rw [hc3, if_neg (by norm_num), if_neg (by decide)]
        have hc4 : inetCheck4 P.bits a .ge 15 = 12 := by
          unfold inetCheck4
          dsimp only
          rw [if_pos hk3]
          try decide
        rw [hc4, if_neg (by norm_num), if_pos (by omega : P.bits ≠ a.bits)]
        exact testBit12 (nodeNumber_ge2 hkm2) (nodeNumber_lt4 L P.bits)
    · have hc3 : inetCheck3 P.bits a .ge 15 = 15 := by
        unfold inetCheck3
        dsimp only
        rw [if_neg (fun hcon => hk3 hcon.2)]
      rw [hc3, if_neg (by norm_num), if_neg (by decide)]
      have hc4 : inetCheck4 P.bits a .ge 15 = 15 := by
        unfold inetCheck4
        dsimp only
        rw [if_neg hk3]
      rw [hc4, if_neg (by norm_num)]
      by_cases hk5 : P.bits = a.bits
      · rw [if_neg (not_not_intro hk5)]
        by_cases hmb : P.bits < ip_maxbits a
        · cases hna : a.addr P.bits with
          | true =>
            have hc5 : inetCheck5 false P.bits a .ge 15 = 14 := by
              unfold inetCheck5
              dsimp only
              rw [if_pos ⟨by decide, by decide, hmb⟩, hna]
              try decide
            rw [hc5, if_neg (by norm_num), if_neg (by decide)]
            by_cases hkm2 : P.bits < L.bits
            · exact testBit14 (nodeNumber_lt4 L P.bits)
                (by have := nodeNumber_ge2 hkm2; omega)
            · cases hLb : L.addr P.bits with
              | true =>
                rw [nodeNumber_eq1 (by omega) hLb hkm2]
                decide
              | false =>
                exfalso
                have hag : ∀ i < P.bits, L.addr i = a.addr i := by
                  intro i hi
                  exact bitncmp_agree_of_eq_zero hoLz (by omega)
                have hneg : bitncmp L.addr a.addr (ip_maxbits L) = -1 :=
                  bitncmp_neg_of_first_diff hag (by omega) hLb hna
                have ht' : min L.bits a.bits = min P.bits a.bits := by
                  omega
                have ho'' : bitncmp L.addr a.addr (min L.bits a.bits) = 0 := by
                  rw [ht']
                  exact hoLz
                rcases hlf with hp | ⟨hz, hcase⟩
                · omega
                · rcases hcase with h1 | ⟨h2, h3⟩ <;> omega
          | false =>
            have hc5 : inetCheck5 false P.bits a .ge 15 = 15 := by
              unfold inetCheck5
              dsimp only
              rw [if_pos ⟨by decide, by decide, hmb⟩, hna]
              try decide
            rw [hc5, if_neg (by norm_num), if_neg (by decide)]
            exact testBit15 (nodeNumber_lt4 L P.bits)
        · have hc5 : inetCheck5 false P.bits a .ge 15 = 15 := by
            unfold inetCheck5
            dsimp only
            rw [if_neg (fun hcon => hmb hcon.2.2)]
          rw [hc5, if_neg (by norm_num), if_neg (by decide)]
          exact testBit15 (nodeNumber_lt4 L P.bits)
      · rw [if_pos hk5]
        exact testBit15 (nodeNumber_lt4 L P.bits)
  · rw [if_pos hoz]
    have hoL' : bitncmp L.addr a.addr (min P.bits a.bits) ≠ 0 := by
      rw [← hoL]
      exact hoz
    have hext : bitncmp L.addr a.addr (min L.bits a.bits) =
        bitncmp L.addr a.addr (min P.bits a.bits) :=
      bitncmp_ne_zero_ext (by omega) hoL'
    rcases hlf with hpos | ⟨hzero, _⟩
    · have hpos2 : bitncmp P.addr a.addr (min P.bits a.bits) > 0 := by
        rw [hoL]
        omega
      unfold inetCheck2
      dsimp only
      rw [if_neg (by omega)]
      exact testBit15 (nodeNumber_lt4 L P.bits)
    · exfalso
      rw [hzero] at hext
      exact hoL' hext.symm

/-- A singleton scan-key list runs the step function once. -/
theorem inetBitmapLoop_singleton (pfx : Inet) (leaf : Bool)
    (s : InetStrategy) (a : Inet) (b : Nat) (hb : b ≠ 0) :
    inetBitmapLoop pfx leaf b [(s, a)] = inetStepKey pfx leaf s a b := by
  rw [inetBitmapLoop_cons, if_neg hb]
  rfl

/-- When the query's family differs from a leaf under the node and the
leaf's family check passes, the node's family check keeps the whole
bitmap. -/
theorem inetCheck0_inner {P L a : Inet} {s : InetStrategy}
    (hfam : L.family = P.family) (h : inetCheck0 L a s 1 ≠ 0) :
    inetCheck0 P a s 15 = 15 := by
  cases s <;>
    first
      | exact absurd rfl h
      | rfl
      | (unfold inetCheck0 at h ⊢
         dsimp only at h ⊢
         split_ifs at h ⊢ <;> omega)

/-- Facts recovered from a leaf passing the strict-subnet check. -/
theorem leafFacts_sub {L a : Inet}
    (h : inetStepKey L true .sub a 1 ≠ 0) :
    a.family = L.family ∧ a.bits < L.bits ∧
      bitncmp L.addr a.addr (min L.bits a.bits) = 0 := by
  unfold inetStepKey at h
  by_cases hfam : a.family = L.family
  · rw [if_neg (not_not_intro hfam)] at h
    dsimp only at h
    by_cases hba : L.bits ≤ a.bits
    · exfalso
      have hc1 : inetCheck1 L.bits a .sub 1 = 0 := by
        unfold inetCheck1
        dsimp only
        rw [if_pos hba]
        try decide
      rw [hc1, if_pos rfl] at h
      exact h rfl
    · by_cases ho : bitncmp L.addr a.addr (min L.bits a.bits) = 0
      · exact ⟨hfam, by omega, ho⟩
      · exfalso
        have hc1 : inetCheck1 L.bits a .sub 1 = 1 := by
          unfold inetCheck1
          dsimp only
          rw [if_neg hba]
        rw [hc1, if_neg (by norm_num), if_pos ho] at h
        exact h rfl
  · exfalso
    rw [if_pos hfam] at h
    exact h rfl

/-- Facts recovered from a leaf passing the subnet-or-equal check. -/
theorem leafFacts_subEq {L a : Inet}
    (h : inetStepKey L true .subEq a 1 ≠ 0) :
    a.family = L.family ∧ a.bits ≤ L.bits ∧
      bitncmp L.addr a.addr (min L.bits a.bits) = 0 := by
  unfold inetStepKey at h
  by_cases hfam : a.family = L.family
  · rw [if_neg (not_not_intro hfam)] at h
    dsimp only at h
    by_cases hba : L.bits < a.bits
    · exfalso
      have hc1 : inetCheck1 L.bits a .subEq 1 = 0 := by
        unfold inetCheck1
        dsimp only
        rw [if_pos hba]
        try decide
      rw [hc1, if_pos rfl] at h
      exact h rfl
    · by_cases ho : bitncmp L.addr a.addr (min L.bits a.bits) = 0
      · exact ⟨hfam, by omega, ho⟩
      · exfalso
        have hc1 : inetCheck1 L.bits a .subEq 1 = 1 := by
          unfold inetCheck1
          dsimp only
          rw [if_neg hba]
        rw [hc1, if_neg (by norm_num), if_pos ho] at h
        exact h rfl
  · exfalso
    rw [if_pos hfam] at h
    exact h rfl

/-- Facts recovered from a leaf passing the overlap check. -/
theorem leafFacts_overlaps {L a : Inet}
    (h : inetStepKey L true .overlaps a 1 ≠ 0) :
    a.family = L.family ∧
      bitncmp L.addr a.addr (min L.bits a.bits) = 0 := by
  unfold inetStepKey at h
  by_cases hfam : a.family = L.family
  · rw [if_neg (not_not_intro hfam)] at h
    dsimp only at h
    by_cases ho : bitncmp L.addr a.addr (min L.bits a.bits) = 0
    · exact ⟨hfam, ho⟩
    · exfalso
      have hc1 : inetCheck1 L.bits a .overlaps 1 = 1 := rfl
      rw [hc1, if_neg (by norm_num), if_pos ho] at h
      exact h rfl
  · exfalso
    rw [if_pos hfam] at h
    exact h rfl

/-- Facts recovered from a leaf passing the strict-supernet check. -/
theorem leafFacts_superStrict {L a : Inet}
    (h : inetStepKey L true .superStrict a 1 ≠ 0) :
    a.family = L.family ∧ L.bits < a.bits ∧
      bitncmp L.addr a.addr (min L.bits a.bits) = 0 := by
  unfold inetStepKey at h
  by_cases hfam : a.family = L.family
  · rw [if_neg (not_not_intro hfam)] at h
    dsimp only at h
    by_cases hsucc : L.bits + 1 = a.bits
    · by_cases ho : bitncmp L.addr a.addr (min L.bits a.bits) = 0
      · exact ⟨hfam, by omega, ho⟩
      · exfalso
        have hc1 : inetCheck1 L.bits a .superStrict 1 = 1 := by
          unfold inetCheck1
          dsimp only
          rw [if_pos hsucc]
          try decide
        rw [hc1, if_neg (by norm_num), if_pos ho] at h
        exact h rfl
    · by_cases hge : L.bits ≥ a.bits
      · exfalso
        have hc1 : inetCheck1 L.bits a .superStrict 1 = 0 := by
          unfold inetCheck1
          dsimp only
          rw [if_neg hsucc, if_pos hge]
        rw [hc1, if_pos rfl] at h
        exact h rfl
      · by_cases ho : bitncmp L.addr a.addr (min L.bits a.bits) = 0
        · exact ⟨hfam, by omega, ho⟩
        · exfalso
          have hc1 : inetCheck1 L.bits a .superStrict 1 = 1 := by
            unfold inetCheck1
            dsimp only
            rw [if_neg hsucc, if_neg hge]
          rw [hc1, if_neg (by norm_num), if_pos ho] at h
          exact h rfl
  · exfalso
    rw [if_pos hfam] at h
    exact h rfl

/-- Facts recovered from a leaf passing the supernet-or-equal check. -/
theorem leafFacts_superEq {L a : Inet}
    (h : inetStepKey L true .superEq a 1 ≠ 0) :
    a.family = L.family ∧ L.bits ≤ a.bits ∧
      bitncmp L.addr a.addr (min L.bits a.bits) = 0 := by
  unfold inetStepKey at h
  by_cases hfam : a.family = L.family
  · rw [if_neg (not_not_intro hfam)] at h
    dsimp only at h
    by_cases heqb : L.bits = a.bits
    · by_cases ho : bitncmp L.addr a.addr (min L.bits a.bits) = 0
      · exact ⟨hfam, by omega, ho⟩
      · exfalso
        have hc1 : inetCheck1 L.bits a .superEq 1 = 1 := by
          unfold inetCheck1
          dsimp only
          rw [if_pos heqb]
          try decide
        rw [hc1, if_neg (by norm_num), if_pos ho] at h
        exact h rfl
    · by_cases hgt : L.bits > a.bits
      · exfalso
        have hc1 : inetCheck1 L.bits a .superEq 1 = 0 := by
          unfold inetCheck1
          dsimp only
          rw [if_neg heqb, if_pos hgt]
        rw [hc1, if_pos rfl] at h
        exact h rfl
      · by_cases ho : bitncmp L.addr a.addr (min L.bits a.bits) = 0
        · exact ⟨hfam, by omega, ho⟩
        · exfalso
          have hc1 : inetCheck1 L.bits a .superEq 1 = 1 := by
            unfold inetCheck1
            dsimp only
            rw [if_neg heqb, if_neg hgt]
          rw [hc1, if_neg (by norm_num), if_pos ho] at h
          exact h rfl
  · exfalso
    rw [if_pos hfam] at h
    exact h rfl

/-- Facts recovered from a leaf passing the equality check. -/
theorem leafFacts_eq {L a : Inet}
    (h : inetStepKey L true .eq a 1 ≠ 0) :
    a.family = L.family ∧ L.bits = a.bits ∧
      bitncmp L.addr a.addr (ip_maxbits L) = 0 := by
  unfold inetStepKey at h
  by_cases hfam : a.family = L.family
  · rw [if_neg (not_not_intro hfam)] at h
    dsimp only at h
    by_cases hlt : L.bits < a.bits
    · exfalso
      have hc1 : inetCheck1 L.bits a .eq 1 = 0 := by
        unfold inetCheck1
        dsimp only
        rw [if_pos hlt]
        try decide
      rw [hc1, if_pos rfl] at h
      exact h rfl
    · by_cases hm : L.bits = a.bits
      · have hc1 : inetCheck1 L.bits a .eq 1 = 1 := by
          unfold inetCheck1
          dsimp only
          rw [if_neg hlt, if_pos hm]
          try decide
        rw [hc1, if_neg (by norm_num)] at h
        by_cases ho : bitncmp L.addr a.addr (min L.bits a.bits) = 0
        · rw [if_neg (not_not_intro ho)] at h
          have hc3 : inetCheck3 L.bits a .eq 1 = 1 := by
            unfold inetCheck3
            dsimp only
            rw [if_neg (fun hcon => hcon.1 (by decide))]
          rw [hc3, if_neg (by norm_num), if_neg (by decide)] at h
          have hc4 : inetCheck4 L.bits a .eq 1 = 1 := rfl
          rw [hc4, if_neg (by norm_num), if_neg (not_not_intro hm)] at h
          have hc5 : inetCheck5 true L.bits a .eq 1 = 1 := by
            unfold inetCheck5
            dsimp only
            rw [if_neg (fun hcon => absurd hcon.1 (by decide))]
          rw [hc5, if_neg (by norm_num), if_pos rfl] at h
          unfold inetCheck6 at h
          dsimp only at h
          by_cases ho2 : bitncmp L.addr a.addr (ip_maxbits L) = 0
          · exact ⟨hfam, hm, ho2⟩
          · exfalso
            rw [if_pos ho2] at h
            exact h rfl
        · exfalso
          rw [if_pos ho] at h
          exact h rfl
      · exfalso
        have hc1 : inetCheck1 L.bits a .eq 1 = 0 := by
          unfold inetCheck1
          dsimp only
          rw [if_neg hlt, if_neg hm]
        rw [hc1, if_pos rfl] at h
        exact h rfl
  · exfalso
    rw [if_pos hfam] at h
    exact h rfl

/-- Facts recovered from a same-family leaf passing the less-than
check. -/
theorem leafFacts_lt {L a : Inet} (hfam : a.family = L.family)
    (h : inetStepKey L true .lt a 1 ≠ 0) :
    bitncmp L.addr a.addr (min L.bits a.bits) < 0 ∨
      (bitncmp L.addr a.addr (min L.bits a.bits) = 0 ∧
        (L.bits < a.bits ∨ (L.bits = a.bits ∧
          bitncmp L.addr a.addr (ip_maxbits L) < 0))) := by
  unfold inetStepKey at h
  rw [if_neg (not_not_intro hfam)] at h
  dsimp only at h
  have hc1 : inetCheck1 L.bits a .lt 1 = 1 := rfl
  rw [hc1, if_neg (by norm_num)] at h
  by_cases ho : bitncmp L.addr a.addr (min L.bits a.bits) = 0
  · right
    refine ⟨ho, ?_⟩
    rw [if_neg (not_not_intro ho)] at h
    have hc3 : inetCheck3 L.bits a .lt 1 = 1 := by
      unfold inetCheck3
      dsimp only
      rw [if_neg (fun hcon => hcon.1 (by decide))]
    rw [hc3, if_neg (by norm_num), if_neg (by decide)] at h
    by_cases hm : L.bits = a.bits
    · right
      refine ⟨hm, ?_⟩
      have hc4 : inetCheck4 L.bits a .lt 1 = 1 := by
        unfold inetCheck4
        dsimp only
        rw [if_pos hm]
        try decide
      rw [hc4, if_neg (by norm_num), if_neg (not_not_intro hm)] at h
      have hc5 : inetCheck5 true L.bits a .lt 1 = 1 := by
        unfold inetCheck5
        dsimp only
        rw [if_neg (fun hcon => absurd hcon.1 (by decide))]
      rw [hc5, if_neg (by norm_num), if_pos rfl] at h
      unfold inetCheck6 at h
      dsimp only at h
      by_cases ho2 : bitncmp L.addr a.addr (ip_maxbits L) ≥ 0
      · exfalso
        rw [if_pos ho2] at h
        exact h rfl
      · omega
    · by_cases hgt : L.bits > a.bits
      · exfalso
        have hc4 : inetCheck4 L.bits a .lt 1 = 0 := by
          unfold inetCheck4
          dsimp only
          rw [if_neg hm, if_pos hgt]
        rw [hc4, if_pos rfl] at h
        exact h rfl
      · left
        omega
  · left
    rw [if_pos ho] at h
    unfold inetCheck2 at h
    dsimp only at h
    by_cases hgt0 : bitncmp L.addr a.addr (min L.bits a.bits) > 0
    · exfalso
      rw [if_pos hgt0] at h
      exact h rfl
    · omega

/-- Facts recovered from a same-family leaf passing the
less-or-equal check. -/
theorem leafFacts_le {L a : Inet} (hfam : a.family = L.family)
    (h : inetStepKey L true .le a 1 ≠ 0) :
    bitncmp L.addr a.addr (min L.bits a.bits) < 0 ∨
      (bitncmp L.addr a.addr (min L.bits a.bits) = 0 ∧
        (L.bits < a.bits ∨ (L.bits = a.bits ∧
          bitncmp L.addr a.addr (ip_maxbits L) ≤ 0))) := by
  unfold inetStepKey at h
  rw [if_neg (not_not_intro hfam)] at h
  dsimp only at h
  have hc1 : inetCheck1 L.bits a .le 1 = 1 := rfl
  rw [hc1, if_neg (by norm_num)] at h
  by_cases ho : bitncmp L.addr a.addr (min L.bits a.bits) = 0
  · right
    refine ⟨ho, ?_⟩
    rw [if_neg (not_not_intro ho)] at h
    have hc3 : inetCheck3 L.bits a .le 1 = 1 := by
      unfold inetCheck3
      dsimp only
      rw [if_neg (fun hcon => hcon.1 (by decide))]
    rw [hc3, if_neg (by norm_num), if_neg (by decide)] at h
    by_cases hm : L.bits = a.bits
    · right
      refine ⟨hm, ?_⟩
      have hc4 : inetCheck4 L.bits a .le 1 = 1 := by
        unfold inetCheck4
        dsimp only
        rw [if_pos hm]
        try decide
      rw [hc4, if_neg (by norm_num), if_neg (not_not_intro hm)] at h
      have hc5 : inetCheck5 true L.bits a .le 1 = 1 := by
        unfold inetCheck5
        dsimp only
        rw [if_neg (fun hcon => absurd hcon.1 (by decide))]
      rw [hc5, if_neg (by norm_num), if_pos rfl] at h
      unfold inetCheck6 at h
      dsimp only at h
      by_cases ho2 : bitncmp L.addr a.addr (ip_maxbits L) > 0
      · exfalso
        rw [if_pos ho2] at h
        exact h rfl
      · omega
    · by_cases hgt : L.bits > a.bits
      · exfalso
        have hc4 : inetCheck4 L.bits a .le 1 = 0 := by
          unfold inetCheck4
          dsimp only
          rw [if_neg hm, if_pos hgt]
        rw [hc4, if_pos rfl] at h
        exact h rfl
      · left
        omega
  · left
    rw [if_pos ho] at h
    unfold inetCheck2 at h
    dsimp only at h
    by_cases hgt0 : bitncmp L.addr a.addr (min L.bits a.bits) > 0
    · exfalso
      rw [if_pos hgt0] at h
      exact h rfl
    · omega

/-- Facts recovered from a same-family leaf passing the greater-than
check. -/
theorem leafFacts_gt {L a : Inet} (hfam : a.family = L.family)
    (h : inetStepKey L true .gt a 1 ≠ 0) :
    bitncmp L.addr a.addr (min L.bits a.bits) > 0 ∨
      (bitncmp L.addr a.addr (min L.bits a.bits) = 0 ∧
        (a.bits < L.bits ∨ (L.bits = a.bits ∧
          bitncmp L.addr a.addr (ip_maxbits L) > 0))) := by
  unfold inetStepKey at h
  rw [if_neg (not_not_intro hfam)] at h
  dsimp only at h
  have hc1 : inetCheck1 L.bits a .gt 1 = 1 := rfl
  rw [hc1, if_neg (by norm_num)] at h
  by_cases ho : bitncmp L.addr a.addr (min L.bits a.bits) = 0
  · right
    refine ⟨ho, ?_⟩
    rw [if_neg (not_not_intro ho)] at h
    have hc3 : inetCheck3 L.bits a .gt 1 = 1 := by
      unfold inetCheck3
      dsimp only
      rw [if_neg (fun hcon => hcon.1 (by decide))]
    rw [hc3, if_neg (by norm_num), if_neg (by decide)] at h
    by_cases hlt : L.bits < a.bits
    · exfalso
      have hc4 : inetCheck4 L.bits a .gt 1 = 0 := by
        unfold inetCheck4
        dsimp only
        rw [if_pos hlt]
        try decide
      rw [hc4, if_pos rfl] at h
      exact h rfl
    · by_cases hm : L.bits = a.bits
      · right
        refine ⟨hm, ?_⟩
        have hc4 : inetCheck4 L.bits a .gt 1 = 1 := by
          unfold inetCheck4
          dsimp only
          rw [if_neg hlt]
        rw [hc4, if_neg (by norm_num), if_neg (not_not_intro hm)] at h
        have hc5 : inetCheck5 true L.bits a .gt 1 = 1 := by
          unfold inetCheck5
          dsimp only
          rw [if_neg (fun hcon => absurd hcon.1 (by decide))]
        rw [hc5, if_neg (by norm_num), if_pos rfl] at h
        unfold inetCheck6 at h
        dsimp only at h
        by_cases ho2 : bitncmp L.addr a.addr (ip_maxbits L) ≤ 0
        · exfalso
          rw [if_pos ho2] at h
          exact h rfl
        · omega
      · left
        omega
  · left
    rw [if_pos ho] at h
    unfold inetCheck2 at h
    dsimp only at h
    by_cases hlt0 : bitncmp L.addr a.addr (min L.bits a.bits) < 0
    · exfalso
      rw [if_pos hlt0] at h
      exact h rfl
    · omega

/-- Facts recovered from a same-family leaf passing the
greater-or-equal check. -/
theorem leafFacts_ge {L a : Inet} (hfam : a.family = L.family)
    (h : inetStepKey L true .ge a 1 ≠ 0) :
    bitncmp L.addr a.addr (min L.bits a.bits) > 0 ∨
      (bitncmp L.addr a.addr (min L.bits a.bits) = 0 ∧
        (a.bits < L.bits ∨ (L.bits = a.bits ∧
          0 ≤ bitncmp L.addr a.addr (ip_maxbits L)))) := by
  unfold inetStepKey at h
  rw [if_neg (not_not_intro hfam)] at h
  dsimp only at h
  have hc1 : inetCheck1 L.bits a .ge 1 = 1 := rfl
  rw [hc1, if_neg (by norm_num)] at h
  by_cases ho : bitncmp L.addr a.addr (min L.bits a.bits) = 0
  · right
    refine ⟨ho, ?_⟩
    rw [if_neg (not_not_intro ho)] at h
    have hc3 : inetCheck3 L.bits a .ge 1 = 1 := by
      unfold inetCheck3
      dsimp only
      rw [if_neg (fun hcon => hcon.1 (by decide))]
    rw [hc3, if_neg (by norm_num), if_neg (by decide)] at h
    by_cases hlt : L.bits < a.bits
    · exfalso
      have hc4 : inetCheck4 L.bits a .ge 1 = 0 := by
        unfold inetCheck4
        dsimp only
        rw [if_pos hlt]
        try decide
      rw [hc4, if_pos rfl] at h
      exact h rfl
    · by_cases hm : L.bits = a.bits
      · right
        refine ⟨hm, ?_⟩
        have hc4 : inetCheck4 L.bits a .ge 1 = 1 := by
          unfold inetCheck4
          dsimp only
          rw [if_neg hlt]
        rw [hc4, if_neg (by norm_num), if_neg (not_not_intro hm)] at h
        have hc5 : inetCheck5 true L.bits a .ge 1 = 1 := by
          unfold inetCheck5
          dsimp only
          rw [if_neg (fun hcon => absurd hcon.1 (by decide))]
        rw [hc5, if_neg (by norm_num), if_pos rfl] at h
        unfold inetCheck6 at h
        dsimp only at h
        by_cases ho2 : bitncmp L.addr a.addr (ip_maxbits L) < 0
        · exfalso
          rw [if_pos ho2] at h
          exact h rfl
        · omega
      · left
        omega
  · left
    rw [if_pos ho] at h
    unfold inetCheck2 at h
    dsimp only at h
    by_cases hlt0 : bitncmp L.addr a.addr (min L.bits a.bits) < 0
    · exfalso
      rw [if_pos hlt0] at h
      exact h rfl
    · omega

/-- A query whose family differs from both the leaf's and the node's is
approved at every node once the leaf's family check passes. -/
theorem innerSound_famDiff {P L a : Inet} {s : InetStrategy} (n : Nat)
    (hn : n < 4) (hfam : L.family = P.family)
    (hfa : ¬a.family = L.family)
    (hstep : inetStepKey L true s a 1 ≠ 0) :
    (inetStepKey P false s a 15).testBit n = true := by
  have hfaP : a.family ≠ P.family := by
    rw [← hfam]
    exact hfa
  have h0 : inetCheck0 L a s 1 ≠ 0 := by
    unfold inetStepKey at hstep
    rw [if_pos hfa] at hstep
    exact hstep
  unfold inetStepKey
  rw [if_pos hfaP, inetCheck0_inner hfam h0]
  exact testBit15 hn

/-- C1.  Soundness of inner-node pruning, with no false negatives: for
the box quad tree, whenever a valid leaf box lies inside a traversal
rectangle reachable from the root and satisfies
`spg_box_quad_leaf_consistent` for all scan keys, the quadrant of that
box at the node's centroid is among the nodes that
`spg_box_quad_inner_consistent` approves; for the network prefix tree,
whenever a leaf value stored under a prefixed node (same family, at least
as many network bits, agreeing with the prefix on its bits) satisfies
`inet_spg_leaf_consistent` for a scan key, the node number
`inet_spg_node_number` that `inet_spg_choose` files the leaf under is
among the nodes approved by the inner consistency bitmap. -/
theorem inner_consistent_sound :
    (∀ (keys : List (BoxStrategy × BoxT)) (B C : BoxT) (R : RectBox),
      ReachableRect R →
      validBox B = true →
      inRectBox B R = true →
      spg_box_quad_leaf_consistent B keys = true →
      getQuadrant C B ∈ spg_box_quad_inner_nodes R C keys) ∧
    (∀ (s : InetStrategy) (P L a : Inet),
      inetWF L → inetWF a →
      L.family = P.family →
      P.bits ≤ L.bits →
      (∀ i < P.bits, L.addr i = P.addr i) →
      inet_spg_leaf_consistent L [(s, a)] = true →
      inet_spg_node_number L P.bits ∈
        inet_spg_inner_consistent_nodes P [(s, a)]) := by
  constructor
  · intro keys B C R _hreach hv hin hleaf
    unfold spg_box_quad_inner_nodes
    rw [List.mem_filter]
    refine ⟨?_, ?_⟩
    · rw [List.mem_range]
      unfold getQuadrant
      split_ifs <;> norm_num
    · rw [List.all_eq_true]
      intro k hk
      unfold spg_box_quad_leaf_consistent at hleaf
      rw [List.all_eq_true] at hleaf
      exact boxInner_sound k.1 B k.2 _ hv (inRect_evalRect B C R hin)
        (hleaf k hk)
  · intro s P L a wfL wfa hfam hkm hagree hleaf
    have hstep : inetStepKey L true s a 1 ≠ 0 := by
      unfold inet_spg_leaf_consistent inet_spg_consistent_bitmap at hleaf
      rw [show (if true then 1 else 1 ||| 2 ||| 4 ||| 8) = 1 from rfl,
        inetBitmapLoop_singleton L true s a 1 (by norm_num)] at hleaf
      exact of_decide_eq_true hleaf
    unfold inet_spg_inner_consistent_nodes
    rw [List.mem_filter]
    refine ⟨by rw [List.mem_range]; exact nodeNumber_lt4 L P.bits, ?_⟩
    show (inet_spg_consistent_bitmap P [(s, a)] false).testBit
      (inet_spg_node_number L P.bits) = true
    unfold inet_spg_consistent_bitmap
    rw [show (if false then 1 else 1 ||| 2 ||| 4 ||| 8) = 15 from rfl,
      inetBitmapLoop_singleton P false s a 15 (by norm_num)]
    cases s with
    | sub =>
      obtain ⟨hfa, hba, ho⟩ := leafFacts_sub hstep
      exact innerSound_sub P L a wfL hkm hagree (hfa.trans hfam) hba ho
    | subEq =>
      obtain ⟨hfa, hba, ho⟩ := leafFacts_subEq hstep
      exact innerSound_subEq P L a wfL hkm hagree (hfa.trans hfam) hba ho
    | overlaps =>
      obtain ⟨hfa, ho⟩ := leafFacts_overlaps hstep
      exact innerSound_overlaps P L a wfL hkm hagree (hfa.trans hfam) ho
    | superStrict =>
      obtain ⟨hfa, hba, ho⟩ := leafFacts_superStrict hstep
      exact innerSound_superStrict P L a wfL hkm hagree (hfa.trans hfam)
        hba ho
    | superEq =>
      obtain ⟨hfa, hba, ho⟩ := leafFacts_superEq hstep
      exact innerSound_superEq P L a wfL hkm hagree (hfa.trans hfam) hba ho
    | eq =>
      obtain ⟨hfa, hm, ho2⟩ := leafFacts_eq hstep
      exact innerSound_eq P L a wfL wfa hkm hagree hfa (hfa.trans hfam)
        hm ho2
    | ne =>
      by_cases hfa : a.family = L.family
      · exact innerSound_ne P a _ (nodeNumber_lt4 L P.bits)
          (hfa.trans hfam)
      · exact innerSound_famDiff _ (nodeNumber_lt4 L P.bits) hfam hfa hstep
    | lt =>
      by_cases hfa : a.family = L.family
      · exact innerSound_lt P L a wfL wfa hkm hagree hfa (hfa.trans hfam)
          (leafFacts_lt hfa hstep)
      · exact innerSound_famDiff _ (nodeNumber_lt4 L P.bits) hfam hfa hstep
    | le =>
      by_cases hfa : a.family = L.family
      · exact innerSound_le P L a wfL wfa hkm hagree hfa (hfa.trans hfam)
          (leafFacts_le hfa hstep)
      · exact innerSound_famDiff _ (nodeNumber_lt4 L P.bits) hfam hfa hstep
    | ge =>
      by_cases hfa : a.family = L.family
      · exact innerSound_ge P L a wfL wfa hkm hagree hfa (hfa.trans hfam)
          (leafFacts_ge hfa hstep)
      · exact innerSound_famDiff _ (nodeNumber_lt4 L P.bits) hfam hfa hstep
    | gt =>
      by_cases hfa : a.family = L.family
      · exact innerSound_gt P L a wfL wfa hkm hagree hfa (hfa.trans hfam)
          (leafFacts_gt hfa hstep)
      · exact innerSound_famDiff _ (nodeNumber_lt4 L P.bits) hfam hfa hstep

/-- Concrete instance of the inner-pruning soundness: the unit box under
quadrant tightening at a centroid, and the leaf 10.1.0.0/16 under the
node prefix 10.0.0.0/8 for a subnet-or-equal query. -/
theorem inner_consistent_sound_witness :
    getQuadrant ⟨⟨2, -1⟩, ⟨3, 0⟩⟩ ⟨⟨0, 0⟩, ⟨1, 1⟩⟩ ∈
        spg_box_quad_inner_nodes initialRectBox ⟨⟨2, -1⟩, ⟨3, 0⟩⟩
          [(.overlap, ⟨⟨0, 0⟩, ⟨1, 1⟩⟩)] ∧
      inet_spg_node_number inet_10_1_0_0_16 cidr_10_0_0_8.bits ∈
        inet_spg_inner_consistent_nodes cidr_10_0_0_8
          [(.subEq, cidr_10_0_0_8)] :=
  ⟨inner_consistent_sound.1 [(.overlap, ⟨⟨0, 0⟩, ⟨1, 1⟩⟩)]
      ⟨⟨0, 0⟩, ⟨1, 1⟩⟩ ⟨⟨2, -1⟩, ⟨3, 0⟩⟩ initialRectBox .root (by decide)
      (by decide) (by decide),
    inner_consistent_sound.2 .subEq cidr_10_0_0_8 inet_10_1_0_0_16
      cidr_10_0_0_8 (by unfold inetWF; decide) (by unfold inetWF; decide)
      (by decide) (by decide) (by decide) (by decide)⟩

end PG
